import Mathlib

/-!
Verification of the CO.RA.PAN annotation pipeline
(`annotation_grabaciones.py`, plus the speaker-attribute mapping of
`analysis_tenses.py` / `database_creation.py`).

The Python code is shallowly embedded: JSON word objects become a `Word`
structure whose optional keys are `Option` fields; the external tagger
(spaCy) is an opaque parameter `nlp : String → List Token`; the
morphological feature bag is an inductive `MorphV` with a well-formed
dictionary constructor and a malformed (non-mapping JSON value)
constructor, and the Python dynamic operations on it (`in`, `.get`,
`[...]`) are modelled exactly, raising (`Except.error`) where Python
raises.  Feature values are modelled as lists of strings and Python's
`in` on them as list membership (spaCy's tags are short codes, so
substring and membership semantics coincide).  String case-folding,
trimming and `endswith` are modelled character-wise on ASCII, matching
Python's behaviour on the corpus alphabet.
-/

/-- Python `string.punctuation` (ASCII codes 33-47, 58-64, 91-96, 123-126)
plus the inverted marks, as in `PUNCT_CHARS = string.punctuation + "¿¡"`. -/
def PUNCT_CHARS : List Char :=
  (((List.range 128).filter (fun n =>
      (33 ≤ n ∧ n ≤ 47) ∨ (58 ≤ n ∧ n ≤ 64) ∨
      (91 ≤ n ∧ n ≤ 96) ∨ (123 ≤ n ∧ n ≤ 126))).map Char.ofNat) ++ ['¿', '¡']

/-- ASCII case folding, modelling Python `str.lower()` on the corpus data. -/
def lowerStr (s : String) : String := String.mk (s.data.map Char.toLower)

/-- Python `str.strip()` (whitespace from both ends). -/
def trimStr (s : String) : String :=
  String.mk (((s.data.dropWhile Char.isWhitespace).reverse.dropWhile
      Char.isWhitespace).reverse)

/-- Python `str.endswith(suf)`. -/
def endsWithStr (s suf : String) : Bool := suf.data.isSuffixOf s.data

/-- `strip_punct`: strips `PUNCT_CHARS` from both ends of a token text. -/
def strip_punct (s : String) : String :=
  String.mk (((s.data.dropWhile (fun c => c ∈ PUNCT_CHARS)).reverse.dropWhile
      (fun c => c ∈ PUNCT_CHARS)).reverse)

/-- Python `" ".join(...)`. -/
def joinSpace : List String → String
  | [] => ""
  | [s] => s
  | s :: rest => s ++ " " ++ joinSpace rest

/-- A JSON morphology value.  `mdict` is the well-formed feature bag
(feature name to list of categorical values, synthetic labels stored as
singleton lists); `mlist` is a malformed (non-mapping) JSON value, the
representative being an array of strings, on which Python `in` is list
membership while `.get`, indexing and item assignment raise. -/
inductive MorphV
  | mdict (entries : List (String × List String))
  | mlist (xs : List String)
deriving DecidableEq, Repr

/-- Python `isinstance(m, dict)`. -/
def MorphV.isDict : MorphV → Bool
  | .mdict _ => true
  | .mlist _ => false

/-- Python `k in m`: key membership for a dict, element membership for a
(malformed) list. -/
def MorphV.pyHasKey : MorphV → String → Bool
  | .mdict es, k => (es.lookup k).isSome
  | .mlist xs, k => xs.contains k

/-- Python `m.get(k, dflt)`: total on dicts, `AttributeError` on a
malformed value. -/
def MorphV.pyGet : MorphV → String → List String → Except String (List String)
  | .mdict es, k, dflt => .ok ((es.lookup k).getD dflt)
  | .mlist _, _, _ => .error "AttributeError"

/-- Python `m[k]`: `KeyError` when the key is absent, `TypeError` on a
malformed value. -/
def MorphV.pyIndex : MorphV → String → Except String (List String)
  | .mdict es, k =>
      match es.lookup k with
      | some v => .ok v
      | none => .error "KeyError"
  | .mlist _, _ => .error "TypeError"

/-- Python `d[k] = v` on a dict: replace an existing key in place,
otherwise append (dicts preserve insertion order). -/
def insertKey (es : List (String × List String)) (k : String) (v : List String) :
    List (String × List String) :=
  if (es.lookup k).isSome then es.map (fun p => if p.1 = k then (k, v) else p)
  else es ++ [(k, v)]

/-- A transcript word object.  Optional JSON keys are `Option` fields;
the annotation fields `pos`, `lemma'`, `dep`, `head_text`, `morph` are
absent (`none`) until the pipeline sets them.  (`lemma'` renders the
JSON key `lemma`, which is a reserved word in Lean.) -/
structure Word where
  text : String := ""
  foreign : Option String := none
  pos : Option String := none
  lemma' : Option String := none
  dep : Option String := none
  head_text : Option String := none
  morph : Option MorphV := none
deriving DecidableEq, Repr

/-- The identity of a word independent of annotation: its text and
foreign flag (the fields the pipeline never writes). -/
def Word.core (w : Word) : String × Option String := (w.text, w.foreign)

/-- A token of the external tagger's output (spaCy token interface). -/
structure Token where
  text : String := ""
  is_punct : Bool := false
  is_space : Bool := false
  pos : String := ""
  lemma' : String := ""
  dep : String := ""
  head_text : String := ""
  morph : List (String × List String) := []
deriving DecidableEq, Repr

/-- A speaker segment: an ordered run of words by one speaker. -/
structure Segment where
  speaker : String := ""
  words : List Word := []
deriving DecidableEq, Repr

/-- A transcript record: the list of segments of one recording. -/
structure Transcript where
  segments : List Segment := []
deriving DecidableEq, Repr

/-- The sentence-closing test of `split_into_sentences`: trimmed,
case-folded text is non-empty and ends in `.`, `?` or `!`. -/
def sentence_end (w : Word) : Bool :=
  let txt := lowerStr (trimStr w.text)
  !txt.isEmpty && (endsWithStr txt "." || endsWithStr txt "?" || endsWithStr txt "!")

/-- Accumulating loop of `split_into_sentences`. -/
def splitGo : List Word → List Word → List (List Word)
  | [], cur => if cur.isEmpty then [] else [cur]
  | w :: rest, cur =>
      let cur' := cur ++ [w]
      if sentence_end w then cur' :: splitGo rest [] else splitGo rest cur'

/-- `split_into_sentences`: split a word list into sentences at words
whose text ends in terminal punctuation; flush an unterminated rest. -/
def split_into_sentences (ws : List Word) : List (List Word) := splitGo ws []

theorem splitGo_join (ws : List Word) :
    ∀ cur, (splitGo ws cur).flatten = cur ++ ws := by
  induction ws with
  | nil =>
      intro cur
      by_cases h : cur.isEmpty
      · simp [splitGo, h, List.isEmpty_iff.mp h]
      · simp [splitGo, h]
  | cons w rest ih =>
      intro cur
      by_cases h : sentence_end w
      · simp [splitGo, h, ih]
      · simp [splitGo, h, ih]

/-- Segmentation partitions the word list: joining the sentences gives
back the original list. -/
theorem split_into_sentences_join (ws : List Word) :
    (split_into_sentences ws).flatten = ws := by
  simpa using splitGo_join ws []

/-- The fields copied onto a word by `fill_word_annotation` or the
fallback: part-of-speech, lemma, dependency, head text, morphology. -/
structure Ann where
  pos : String := ""
  lemma' : String := ""
  dep : String := ""
  head_text : String := ""
  morph : List (String × List String) := []
deriving DecidableEq, Repr

/-- `annotate_fallback`: parse the single word alone; take the first
token's fields, or the explicit empty annotation (lemma = the argument
text) when the re-tag yields no tokens. -/
def annotate_fallback (nlp : String → List Token) (word_text : String) : Ann :=
  match nlp word_text with
  | t :: _ => { pos := t.pos, lemma' := t.lemma', dep := t.dep,
                head_text := t.head_text, morph := t.morph }
  | [] => { pos := "", lemma' := word_text, dep := "", head_text := "", morph := [] }

/-- `fill_word_annotation`: copy a tagger token's fields onto a word. -/
def fill_word_ann (w : Word) (t : Token) : Word :=
  { w with pos := some t.pos, lemma' := some t.lemma', dep := some t.dep,
           head_text := some t.head_text, morph := some (.mdict t.morph) }

/-- Copy a fallback annotation onto a word (the `w.update({...})` call). -/
def apply_fallback (w : Word) (a : Ann) : Word :=
  { w with pos := some a.pos, lemma' := some a.lemma', dep := some a.dep,
           head_text := some a.head_text, morph := some (.mdict a.morph) }

/-- `already_annotated`: some word of some segment already carries a
`pos` or `morph` key. -/
def already_annotated (segments : List Segment) : Bool :=
  segments.any (fun s => s.words.any (fun w => w.pos.isSome || w.morph.isSome))

/-- Length of the leading run of punctuation/whitespace tokens; the
cursor-advance loop `while tok<len(doc) and (is_punct or is_space)`. -/
def skipRun : List Token → Nat
  | [] => 0
  | t :: rest => if t.is_punct || t.is_space then skipRun rest + 1 else 0

/-- Advance the alignment cursor past punctuation/whitespace tokens. -/
def advanceCursor (doc : List Token) (tok : Nat) : Nat :=
  tok + skipRun (doc.drop tok)

/-- Forward-search loop: first token (offset, value) that is neither
punctuation nor whitespace and whose stripped, case-folded text equals
the target. -/
def searchRun (target : String) : List Token → Option (Nat × Token)
  | [] => none
  | t :: rest =>
      if (t.is_punct || t.is_space) = false ∧ strip_punct (lowerStr t.text) = target then
        some (0, t)
      else
        match searchRun target rest with
        | some (j, u) => some (j + 1, u)
        | none => none

/-- Forward search from absolute cursor position `td`. -/
def searchFrom (doc : List Token) (target : String) (td : Nat) : Option (Nat × Token) :=
  (searchRun target (doc.drop td)).map (fun p => (td + p.1, p.2))

/-- A word's normalized text: punctuation-stripped, case-folded. -/
def norm_word (w : Word) : String := strip_punct (lowerStr w.text)

/-- The search-or-fallback tail of the per-word alignment: forward
search from the (advanced) cursor; on success fill from the found token
and move the cursor past it, otherwise single-word fallback re-tagging
with the cursor at the end of the tagged unit. -/
def search_or_fallback (nlp : String → List Token) (doc : List Token)
    (tok1 : Nat) (w : Word) : Word × Nat :=
  match searchFrom doc (norm_word w) tok1 with
  | some (td, t) => (fill_word_ann w t, td + 1)
  | none => (apply_fallback w (annotate_fallback nlp (norm_word w)), doc.length)

/-- One word of the alignment loop of `annotate_file`: special cases
(foreign flag, trailing `-`, the interjection `eeh`) short-circuit
without consuming the cursor; otherwise advance past punctuation and
whitespace, try the direct match, then the forward search, then the
fallback. Returns the updated word and cursor. -/
def annotate_word_step (nlp : String → List Token) (doc : List Token)
    (tok : Nat) (w : Word) : Word × Nat :=
  if w.foreign = some "1" then (w, tok)
  else if endsWithStr w.text "-" = true then
    ({ w with pos := some "self-correction" }, tok)
  else if lowerStr w.text = "eeh" then
    ({ w with pos := some "INTJ", lemma' := some w.text, dep := some "",
              head_text := some "", morph := some (.mdict []) }, tok)
  else
    let tok1 := advanceCursor doc tok
    match doc[tok1]? with
    | some t =>
        if strip_punct (lowerStr t.text) = norm_word w then
          (fill_word_ann w t, tok1 + 1)
        else search_or_fallback nlp doc tok1 w
    | none => search_or_fallback nlp doc tok1 w

/-- Alignment of one sentence's words against its tagged unit, the
cursor threaded left to right. -/
def annotateSentWords (nlp : String → List Token) (doc : List Token) :
    Nat → List Word → List Word
  | _, [] => []
  | tok, w :: rest =>
      let p := annotate_word_step nlp doc tok w
      p.1 :: annotateSentWords nlp doc p.2 rest

/-- The context-window string: previous + current + next sentence,
each word's text case-folded and space-joined. -/
def ctx_string (ctx : List Word) : String := joinSpace (ctx.map (fun w => lowerStr w.text))

/-- The sentence loop of `annotate_file`: each sentence is tagged with
its neighbours as context (`prev` is the previous sentence, empty at the
start) and aligned on its own words only. -/
def annoLoop (nlp : String → List Token) (prev : List Word) :
    List (List Word) → List (List Word)
  | [] => []
  | sent :: rest =>
      let next := match rest with | [] => [] | n :: _ => n
      let doc := nlp (ctx_string (prev ++ sent ++ next))
      annotateSentWords nlp doc 0 sent :: annoLoop nlp sent rest

/-- Annotation of one segment's word list: split into sentences, tag
and align each sentence, rejoin (an empty list is left untouched). -/
def annotate_words (nlp : String → List Token) (wl : List Word) : List Word :=
  if wl.isEmpty then wl
  else (annoLoop nlp [] (split_into_sentences wl)).flatten

/-- Removal of the five annotation keys from a word (the overwrite
pass at the head of `annotate_file`). -/
def clear_word (w : Word) : Word :=
  { w with pos := none, lemma' := none, dep := none, head_text := none, morph := none }

/-- Removal of all annotations from a transcript. -/
def clear_annotations (data : Transcript) : Transcript :=
  { data with segments :=
      data.segments.map (fun s => { s with words := s.words.map clear_word }) }

/-- Haber present forms (`PRESENT_FORMS`). -/
def PRESENT_FORMS : List String :=
  ["he", "has", "ha", "hemos", "habéis", "han", "habés", "habís", "habemos"]

/-- Haber imperfect forms (`IMPERFECT_FORMS`). -/
def IMPERFECT_FORMS : List String := ["había", "habías", "habíamos", "habíais", "habían"]

/-- Haber future forms (`FUTURE_FORMS`). -/
def FUTURE_FORMS : List String := ["habré", "habrás", "habrá", "habremos", "habréis", "habrán"]

/-- Haber conditional forms (`COND_FORMS`). -/
def COND_FORMS : List String := ["habría", "habrías", "habríamos", "habríais", "habrían"]

/-- `set_past_tense_type`: ensure the morph is a dict (replacing a
missing or malformed value by an empty dict) and write the synthetic
`Past_Tense_Type` entry. -/
def set_past_tense_type (w : Word) (label : String) : Word :=
  match w.morph with
  | some (.mdict es) =>
      { w with morph := some (.mdict (insertKey es "Past_Tense_Type" [label])) }
  | _ => { w with morph := some (.mdict [("Past_Tense_Type", [label])]) }

/-- Loop of `detect_compound_any_fallback`: scan the segment (skipping
the participle itself, at index `pidx`) for an AUX sibling with `Pres`
among its Tense values whose case-folded head text equals the
participle's case-folded text; on success the participle is labelled
`PerfectoCompuesto`.  `.get` on a malformed sibling morph raises. -/
def detectLoop (part : Word) (pidx : Nat) : List Word → Nat → Except String (Option Word)
  | [], _ => .ok none
  | sib :: rest, j =>
      if j = pidx then detectLoop part pidx rest (j + 1)
      else if sib.pos = some "AUX" then do
        let tense ← (sib.morph.getD (.mdict [])).pyGet "Tense" []
        if "Pres" ∈ tense ∧ lowerStr (sib.head_text.getD "") = lowerStr part.text then
          pure (some (set_past_tense_type part "PerfectoCompuesto"))
        else detectLoop part pidx rest (j + 1)
      else detectLoop part pidx rest (j + 1)

/-- `detect_compound_any_fallback` (the identity test `sibling is
part_word` rendered as an index test against the participle's position). -/
def detect_compound_any_fallback (part : Word) (pidx : Nat) (seg : List Word) :
    Except String (Option Word) :=
  detectLoop part pidx seg 0

/-- `classify_past_tense_form`: the decision chain assigning
`Past_Tense_Type` to a word whose Tense values contain `Past`. -/
def classify_past_tense_form (w : Word) (pidx : Nat) (seg : List Word) :
    Except String Word :=
  match w.morph.getD (.mdict []) with
  | .mlist _ => .ok w
  | .mdict es =>
      let tense_vals := (es.lookup "Tense").getD []
      let verbform_vals := (es.lookup "VerbForm").getD []
      if "Past" ∉ tense_vals then .ok w
      else if "Fin" ∈ verbform_vals then .ok (set_past_tense_type w "PerfectoSimple")
      else if "Part" ∈ verbform_vals then
        let aux_raw := lowerStr (w.head_text.getD "")
        if aux_raw ∈ PRESENT_FORMS then .ok (set_past_tense_type w "PerfectoCompuesto")
        else if aux_raw ∈ IMPERFECT_FORMS then .ok (set_past_tense_type w "Pluscuamperfecto")
        else if aux_raw ∈ FUTURE_FORMS then .ok (set_past_tense_type w "FuturoPerfecto")
        else if aux_raw ∈ COND_FORMS then .ok (set_past_tense_type w "CondicionalPerfecto")
        else do
          match ← detect_compound_any_fallback w pidx seg with
          | some w' => pure w'
          | none => pure (set_past_tense_type w "OtroCompuesto")
      else .ok (set_past_tense_type w "PastOther")

/-- One word of the tense post-processing pass: words whose morph is
missing or malformed, or whose Tense values lack `Past`, are skipped. -/
def tense_step (ws : List Word) (i : Nat) : Except String (List Word) :=
  match ws[i]? with
  | none => .ok ws
  | some w =>
      match w.morph.getD (.mdict []) with
      | .mlist _ => .ok ws
      | .mdict es =>
          if "Past" ∈ (es.lookup "Tense").getD [] then do
            let w' ← classify_past_tense_form w i ws
            pure (ws.set i w')
          else .ok ws

/-- `post_process_compound_tenses` on one segment's word list. -/
def post_process_tenses_words (ws : List Word) : Except String (List Word) :=
  (List.range ws.length).foldlM tense_step ws

/-- The segment loop shared by both post-processing passes: apply a
word-list transformation to each segment in order. -/
def mapSegsM (f : List Word → Except String (List Word)) :
    List Segment → Except String (List Segment)
  | [] => .ok []
  | s :: rest => do
      let ws ← f s.words
      let rest' ← mapSegsM f rest
      pure ({ s with words := ws } :: rest')

/-- `post_process_compound_tenses` on a transcript. -/
def post_process_compound_tenses (data : Transcript) : Except String Transcript := do
  let segs ← mapSegsM post_process_tenses_words data.segments
  pure { data with segments := segs }

/-- The analytic-future window test on a word triple, returning the
`Future_Type` label to write (`none` when the pattern does not match).
The five cheap conditions short-circuit before the `.get` that raises
on a malformed third-word morph; a malformed first-word morph whose
(list) contents contain `"Tense"` raises at the `morph1["Tense"]`
lookup. -/
def future_window (w1 w2 w3 : Word) : Except String (Option String) :=
  let morph1 := w1.morph.getD (.mdict [])
  let morph3 := w3.morph.getD (.mdict [])
  if w1.pos = some "AUX" ∧ morph1.pyHasKey "Tense" = true ∧ lowerStr w2.text = "a"
      ∧ w2.pos = some "ADP" ∧ w3.pos = some "VERB" then do
    let vf ← morph3.pyGet "VerbForm" []
    if "Inf" ∈ vf then do
      let tense1 ← morph1.pyIndex "Tense"
      if "Pres" ∈ tense1 then pure (some "analyticalFuture")
      else if "Imp" ∈ tense1 then pure (some "analyticalFuture_past")
      else pure none
    else pure none
  else pure none

/-- `w3.setdefault("morph", {})` followed by
`w3["morph"]["Future_Type"] = label`. -/
def set_future_type_entry (w : Word) (label : String) : Except String Word :=
  match w.morph with
  | some (.mdict es) =>
      .ok { w with morph := some (.mdict (insertKey es "Future_Type" [label])) }
  | some (.mlist _) => .error "TypeError"
  | none => .ok { w with morph := some (.mdict [("Future_Type", [label])]) }

/-- One window of the analytic-future pass: on a match, write the label
into the third word's morph. -/
def future_step (ws : List Word) (i : Nat) : Except String (List Word) :=
  match ws[i]?, ws[(i + 1)]?, ws[(i + 2)]? with
  | some w1, some w2, some w3 => do
      match ← future_window w1 w2 w3 with
      | some l => do
          let w3' ← set_future_type_entry w3 l
          pure (ws.set (i + 2) w3')
      | none => pure ws
  | _, _, _ => .ok ws

/-- `post_process_compound_futures` on one segment's word list:
the sliding window `for i in range(len(words) - 2)`. -/
def post_process_futures_words (ws : List Word) : Except String (List Word) :=
  (List.range (ws.length - 2)).foldlM future_step ws

/-- `post_process_compound_futures` on a transcript. -/
def post_process_compound_futures (data : Transcript) : Except String Transcript := do
  let segs ← mapSegsM post_process_futures_words data.segments
  pure { data with segments := segs }

/-- The annotation and post-processing phases of `annotate_file`
(everything after the initial clearing of old annotations). -/
def annotate_core (nlp : String → List Token) (data : Transcript) :
    Except String Transcript := do
  let segs := data.segments.map (fun s => { s with words := annotate_words nlp s.words })
  let annotated : Transcript := { data with segments := segs }
  let t1 ← post_process_compound_tenses annotated
  post_process_compound_futures t1

/-- `annotate_file` on an in-memory transcript: clear old annotations,
annotate, post-process. -/
def annotate_file (nlp : String → List Token) (data : Transcript) :
    Except String Transcript :=
  annotate_core nlp (clear_annotations data)

/-- The per-file policy of `main`: a transcript already carrying
annotations is skipped (left untouched) unless overwrite was requested,
otherwise `annotate_file` runs. -/
def process_transcript (overwrite : Bool) (nlp : String → List Token)
    (data : Transcript) : Except String Transcript :=
  if overwrite = false ∧ already_annotated data.segments = true then .ok data
  else annotate_file nlp data

/-- The fixed speaker-code table of `map_speaker_attributes`
(`analysis_tenses.py` and `database_creation.py`, identical copies):
code to (professionalism, gender, discourse mode, topic). -/
def speaker_mapping : List (String × (String × String × String × String)) :=
  [("lib-pm", ("pro", "m", "libre", "general")),
   ("lib-pf", ("pro", "f", "libre", "general")),
   ("lib-om", ("otro", "m", "libre", "general")),
   ("lib-of", ("otro", "f", "libre", "general")),
   ("lec-pm", ("pro", "m", "lectura", "general")),
   ("lec-pf", ("pro", "f", "lectura", "general")),
   ("lec-om", ("otro", "m", "lectura", "general")),
   ("lec-of", ("otro", "f", "lectura", "general")),
   ("pre-pm", ("pro", "m", "pre", "general")),
   ("pre-pf", ("pro", "f", "pre", "general")),
   ("tie-pm", ("pro", "m", "n/a", "tiempo")),
   ("tie-pf", ("pro", "f", "n/a", "tiempo")),
   ("traf-pm", ("pro", "m", "n/a", "tránsito")),
   ("traf-pf", ("pro", "f", "n/a", "tránsito"))]

/-- `map_speaker_attributes`: `mapping.get(name, ('','','',''))`. -/
def map_speaker_attributes (name : String) : String × String × String × String :=
  (speaker_mapping.lookup name).getD ("", "", "", "")

/-- A tagger token that the forward search accepts for a target:
neither punctuation nor whitespace, and equal to the target under
normalization. -/
def tok_match (target : String) (t : Token) : Prop :=
  (t.is_punct || t.is_space) = false ∧ strip_punct (lowerStr t.text) = target

theorem skipRun_le (l : List Token) : skipRun l ≤ l.length := by
  induction l with
  | nil => simp [skipRun]
  | cons t rest ih =>
      by_cases h : (t.is_punct || t.is_space) = true
      · simpa [skipRun, h] using ih
      · simp [skipRun, h]

theorem skipRun_lt_mem (l : List Token) :
    ∀ j, j < skipRun l →
      ∃ t, l[j]? = some t ∧ (t.is_punct || t.is_space) = true := by
  induction l with
  | nil => intro j hj; simp [skipRun] at hj
  | cons t rest ih =>
      intro j hj
      by_cases h : (t.is_punct || t.is_space) = true
      · cases j with
        | zero => exact ⟨t, by simp, h⟩
        | succ k =>
            have hk : k < skipRun rest := by
              have := hj
              simp [skipRun, h] at this
              omega
            obtain ⟨u, hu, hpu⟩ := ih k hk
            exact ⟨u, by simpa using hu, hpu⟩
      · simp [skipRun, h] at hj

theorem skipRun_stop (l : List Token) :
    ∀ t, l[(skipRun l)]? = some t → (t.is_punct || t.is_space) = false := by
  induction l with
  | nil => intro t ht; simp at ht
  | cons u rest ih =>
      intro t ht
      by_cases h : (u.is_punct || u.is_space) = true
      · have : rest[(skipRun rest)]? = some t := by
          simpa [skipRun, h] using ht
        exact ih t this
      · have : u = t := by simpa [skipRun, h] using ht
        subst this
        simpa using h

theorem advanceCursor_ge (doc : List Token) (tok : Nat) :
    tok ≤ advanceCursor doc tok := Nat.le_add_right tok _

theorem advanceCursor_skipped (doc : List Token) (tok : Nat) :
    ∀ j, tok ≤ j → j < advanceCursor doc tok →
      ∃ t, doc[j]? = some t ∧ (t.is_punct || t.is_space) = true := by
  intro j hle hlt
  have hm : j - tok < skipRun (doc.drop tok) := by
    unfold advanceCursor at hlt; omega
  obtain ⟨t, ht, hp⟩ := skipRun_lt_mem (doc.drop tok) (j - tok) hm
  refine ⟨t, ?_, hp⟩
  rw [List.getElem?_drop] at ht
  have : tok + (j - tok) = j := by omega
  rwa [this] at ht

theorem advanceCursor_stop (doc : List Token) (tok : Nat) :
    ∀ t, doc[(advanceCursor doc tok)]? = some t →
      (t.is_punct || t.is_space) = false := by
  intro t ht
  apply skipRun_stop (doc.drop tok)
  rw [List.getElem?_drop]
  exact ht

theorem searchRun_some (target : String) :
    ∀ (l : List Token) (j : Nat) (t : Token), searchRun target l = some (j, t) →
      l[j]? = some t ∧ tok_match target t ∧
        ∀ (k : Nat) (u : Token), k < j → l[k]? = some u → ¬ tok_match target u := by
  intro l
  induction l with
  | nil => intro j t h; simp [searchRun] at h
  | cons v rest ih =>
      intro j t h
      by_cases hc : (v.is_punct || v.is_space) = false ∧ strip_punct (lowerStr v.text) = target
      · rw [searchRun, if_pos hc] at h
        simp at h
        obtain ⟨hj, hv⟩ := h
        subst hj; subst hv
        exact ⟨by simp, hc, by intro k u hk; omega⟩
      · rw [searchRun, if_neg hc] at h
        cases hr : searchRun target rest with
        | none => rw [hr] at h; simp at h
        | some p =>
            rw [hr] at h
            simp at h
            obtain ⟨hj, ht⟩ := h
            obtain ⟨hg, hm, hmin⟩ := ih p.1 p.2 (by rw [hr])
            subst ht
            refine ⟨by simpa [← hj] using hg, hm, ?_⟩
            intro k u hk hku
            cases k with
            | zero =>
                have : v = u := by simpa using hku
                subst this
                exact hc
            | succ k' =>
                exact hmin k' u (by omega) (by simpa using hku)

theorem searchRun_none (target : String) :
    ∀ (l : List Token), searchRun target l = none →
      ∀ (k : Nat) (u : Token), l[k]? = some u → ¬ tok_match target u := by
  intro l
  induction l with
  | nil => intro _ k u hk; simp at hk
  | cons v rest ih =>
      intro h k u hk
      by_cases hc : (v.is_punct || v.is_space) = false ∧ strip_punct (lowerStr v.text) = target
      · rw [searchRun, if_pos hc] at h
        simp at h
      · rw [searchRun, if_neg hc] at h
        have hr : searchRun target rest = none := by
          cases hrr : searchRun target rest with
          | none => rfl
          | some p => rw [hrr] at h; simp at h
        cases k with
        | zero =>
            have : v = u := by simpa using hk
            subst this
            exact hc
        | succ k' => exact ih hr k' u (by simpa using hk)

theorem searchFrom_some (doc : List Token) (target : String) (td j : Nat) (t : Token) :
    searchFrom doc target td = some (j, t) →
      td ≤ j ∧ doc[j]? = some t ∧ tok_match target t ∧
        ∀ (k : Nat) (u : Token), td ≤ k → k < j → doc[k]? = some u → ¬ tok_match target u := by
  intro h
  unfold searchFrom at h
  cases hr : searchRun target (doc.drop td) with
  | none => rw [hr] at h; simp at h
  | some p =>
      rw [hr] at h
      simp at h
      obtain ⟨hj, ht⟩ := h
      obtain ⟨hg, hm, hmin⟩ := searchRun_some target _ p.1 p.2 (by rw [hr])
      subst ht
      constructor
      · omega
      refine ⟨?_, hm, ?_⟩
      · rw [List.getElem?_drop] at hg; rwa [hj] at hg
      · intro k u hk1 hk2 hku
        have hk' : k - td < p.1 := by omega
        apply hmin (k - td) u hk'
        rw [List.getElem?_drop]
        have : td + (k - td) = k := by omega
        rwa [this]

theorem searchFrom_none (doc : List Token) (target : String) (td : Nat) :
    searchFrom doc target td = none →
      ∀ (k : Nat) (u : Token), td ≤ k → doc[k]? = some u → ¬ tok_match target u := by
  intro h k u hk hku
  unfold searchFrom at h
  cases hr : searchRun target (doc.drop td) with
  | some p => rw [hr] at h; simp at h
  | none =>
      apply searchRun_none target _ hr (k - td) u
      rw [List.getElem?_drop]
      have : td + (k - td) = k := by omega
      rwa [this]

/-- A word handled by the main alignment path: not foreign-flagged, not
a trailing-dash self-interruption, not the interjection `eeh`. -/
def not_special (w : Word) : Prop :=
  w.foreign ≠ some "1" ∧ endsWithStr w.text "-" = false ∧ lowerStr w.text ≠ "eeh"

theorem step_not_special (nlp : String → List Token) (doc : List Token)
    (tok : Nat) (w : Word) (h1 : w.foreign ≠ some "1")
    (h2 : endsWithStr w.text "-" = false) (h3 : lowerStr w.text ≠ "eeh") :
    annotate_word_step nlp doc tok w =
      match doc[(advanceCursor doc tok)]? with
      | some t =>
          if strip_punct (lowerStr t.text) = norm_word w then
            (fill_word_ann w t, advanceCursor doc tok + 1)
          else search_or_fallback nlp doc (advanceCursor doc tok) w
      | none => search_or_fallback nlp doc (advanceCursor doc tok) w := by
  rw [annotate_word_step, if_neg h1, if_neg (by simp [h2]), if_neg h3]

theorem step_search_some (nlp : String → List Token) (doc : List Token)
    (tok : Nat) (w : Word) (j : Nat) (t : Token) (h1 : w.foreign ≠ some "1")
    (h2 : endsWithStr w.text "-" = false) (h3 : lowerStr w.text ≠ "eeh")
    (hsf : searchFrom doc (norm_word w) (advanceCursor doc tok) = some (j, t)) :
    annotate_word_step nlp doc tok w = (fill_word_ann w t, j + 1) := by
  rw [step_not_special nlp doc tok w h1 h2 h3]
  obtain ⟨hle, hg, _, hmin⟩ := searchFrom_some doc _ _ j t hsf
  cases hga : doc[(advanceCursor doc tok)]? with
  | none => simp [search_or_fallback, hsf]
  | some u =>
      by_cases hd : strip_punct (lowerStr u.text) = norm_word w
      · have hmu : tok_match (norm_word w) u :=
          ⟨advanceCursor_stop doc tok u hga, hd⟩
        have hja : j = advanceCursor doc tok := by
          by_contra hne
          have hlt : advanceCursor doc tok < j := by omega
          exact hmin _ u le_rfl hlt hga hmu
        have hut : u = t := by
          rw [hja] at hg
          rw [hga] at hg
          simpa using hg
        subst hut
        simp [hd, hja]
      · simp [hd, search_or_fallback, hsf]

theorem step_search_none (nlp : String → List Token) (doc : List Token)
    (tok : Nat) (w : Word) (h1 : w.foreign ≠ some "1")
    (h2 : endsWithStr w.text "-" = false) (h3 : lowerStr w.text ≠ "eeh")
    (hsf : searchFrom doc (norm_word w) (advanceCursor doc tok) = none) :
    annotate_word_step nlp doc tok w =
      (apply_fallback w (annotate_fallback nlp (norm_word w)), doc.length) := by
  rw [step_not_special nlp doc tok w h1 h2 h3]
  cases hga : doc[(advanceCursor doc tok)]? with
  | none => simp [search_or_fallback, hsf]
  | some u =>
      by_cases hd : strip_punct (lowerStr u.text) = norm_word w
      · exfalso
        exact searchFrom_none doc _ _ hsf _ u le_rfl hga
          ⟨advanceCursor_stop doc tok u hga, hd⟩
      · simp [hd, search_or_fallback, hsf]

/-- Claim C5: for a non-special word the aligner advances the cursor
past every punctuation/whitespace token (and only such tokens); a
normalized match at the advanced cursor is assigned and consumes one
token; otherwise the first forward normalized match among
non-punctuation, non-whitespace tokens is assigned and the cursor moves
just past it, and when the search fails the cursor is left at the end
of the tagged unit. -/
theorem alignment_cursor_policy (nlp : String → List Token) (doc : List Token)
    (tok : Nat) (w : Word) (hns : not_special w) :
    (tok ≤ advanceCursor doc tok
      ∧ (∀ j, tok ≤ j → j < advanceCursor doc tok →
          ∃ t, doc[j]? = some t ∧ (t.is_punct || t.is_space) = true)
      ∧ (∀ t, doc[(advanceCursor doc tok)]? = some t →
          (t.is_punct || t.is_space) = false))
    ∧ (∀ t, doc[(advanceCursor doc tok)]? = some t →
        strip_punct (lowerStr t.text) = norm_word w →
        annotate_word_step nlp doc tok w = (fill_word_ann w t, advanceCursor doc tok + 1))
    ∧ (∀ j t, searchFrom doc (norm_word w) (advanceCursor doc tok) = some (j, t) →
        (advanceCursor doc tok ≤ j ∧ doc[j]? = some t ∧ tok_match (norm_word w) t
          ∧ ∀ (k : Nat) (u : Token), advanceCursor doc tok ≤ k → k < j → doc[k]? = some u →
              ¬ tok_match (norm_word w) u)
        ∧ annotate_word_step nlp doc tok w = (fill_word_ann w t, j + 1))
    ∧ (searchFrom doc (norm_word w) (advanceCursor doc tok) = none →
        (∀ (k : Nat) (u : Token), advanceCursor doc tok ≤ k → doc[k]? = some u →
            ¬ tok_match (norm_word w) u)
        ∧ (annotate_word_step nlp doc tok w).2 = doc.length) := by
  obtain ⟨h1, h2, h3⟩ := hns
  refine ⟨⟨advanceCursor_ge doc tok, advanceCursor_skipped doc tok,
      advanceCursor_stop doc tok⟩, ?_, ?_, ?_⟩
  · intro t hg hm
    rw [step_not_special nlp doc tok w h1 h2 h3, hg]
    simp [hm]
  · intro j t hsf
    exact ⟨searchFrom_some doc _ _ j t hsf,
      step_search_some nlp doc tok w j t h1 h2 h3 hsf⟩
  · intro hsf
    refine ⟨searchFrom_none doc _ _ hsf, ?_⟩
    rw [step_search_none nlp doc tok w h1 h2 h3 hsf]

/-- A tagger that returns no tokens on every input (used for concrete
witnesses: alignment then always takes the fallback path). -/
def nlpEmpty : String → List Token := fun _ => []

/-- Claim C6 (amended): when neither the direct match nor the forward
search finds a token, the word is annotated from a single-word re-tag of
its normalized text, with no error; if the re-tag returns no tokens the
word gets the explicit empty annotation whose lemma is the *normalized*
text (not the original text as the claim stated). -/
theorem fallback_total (nlp : String → List Token) (doc : List Token)
    (tok : Nat) (w : Word) (hns : not_special w)
    (hsf : searchFrom doc (norm_word w) (advanceCursor doc tok) = none) :
    annotate_word_step nlp doc tok w =
      (apply_fallback w (annotate_fallback nlp (norm_word w)), doc.length)
    ∧ (nlp (norm_word w) = [] →
        (annotate_word_step nlp doc tok w).1 =
          { w with pos := some "", lemma' := some (norm_word w), dep := some "",
                   head_text := some "", morph := some (.mdict []) }) := by
  obtain ⟨h1, h2, h3⟩ := hns
  have h := step_search_none nlp doc tok w h1 h2 h3 hsf
  refine ⟨h, ?_⟩
  intro hn
  rw [h]
  simp [apply_fallback, annotate_fallback, hn]

/-- The word of the C6 counterexample: upper-case text, so its
normalized text differs from its original text. -/
def cw6 : Word := { text := "A" }

/-- Claim C6 counterexample: for the word "A", with an empty tagged unit
and a single-word re-tag that yields nothing, the fallback annotation's
lemma is the normalized text "a", not the original text "A" as the claim
states. -/
theorem fallback_lemma_counterexample :
    not_special cw6
    ∧ searchFrom [] (norm_word cw6) (advanceCursor [] 0) = none
    ∧ nlpEmpty (norm_word cw6) = []
    ∧ (annotate_word_step nlpEmpty [] 0 cw6).1.lemma' = some (norm_word cw6)
    ∧ (annotate_word_step nlpEmpty [] 0 cw6).1.lemma' ≠ some cw6.text := by
  refine ⟨⟨by decide, by decide, by decide⟩, rfl, rfl, by decide, by decide⟩

/-- Claim C10: the special cases are tested in the fixed order foreign
flag, then trailing dash, then the interjection lexicon, and none of
them consumes the tagger cursor: a foreign-flagged word is returned
untouched, a non-foreign word ending in `-` gets exactly
`pos = "self-correction"`, and a non-foreign, non-dash word whose
case-folded text is `eeh` gets the fixed interjection annotation. -/
theorem special_case_precedence (nlp : String → List Token) (doc : List Token)
    (tok : Nat) (w : Word) :
    (w.foreign = some "1" → annotate_word_step nlp doc tok w = (w, tok))
    ∧ (w.foreign ≠ some "1" → endsWithStr w.text "-" = true →
        annotate_word_step nlp doc tok w =
          ({ w with pos := some "self-correction" }, tok))
    ∧ (w.foreign ≠ some "1" → endsWithStr w.text "-" = false →
        lowerStr w.text = "eeh" →
        annotate_word_step nlp doc tok w =
          ({ w with pos := some "INTJ", lemma' := some w.text, dep := some "",
                    head_text := some "", morph := some (.mdict []) }, tok)) := by
  refine ⟨?_, ?_, ?_⟩
  · intro hf
    rw [annotate_word_step, if_pos hf]
  · intro hf hd
    rw [annotate_word_step, if_neg hf, if_pos hd]
  · intro hf hd he
    rw [annotate_word_step, if_neg hf, if_neg (by simp [hd]), if_pos he]

/-- Witness for claim C10: a foreign-flagged word ending in `-` is left
untouched, and the word "eeh-" is labelled as a self-correction (the
dash test precedes the interjection test); the cursor stays at 2 in
both cases. -/
theorem special_case_precedence_witness :
    annotate_word_step nlpEmpty [] 2 { text := "qué-", foreign := some "1" } =
      ({ text := "qué-", foreign := some "1" }, 2)
    ∧ annotate_word_step nlpEmpty [] 2 { text := "eeh-" } =
      ({ text := "eeh-", pos := some "self-correction" }, 2) := by
  constructor
  · exact (special_case_precedence nlpEmpty [] 2 { text := "qué-", foreign := some "1" }).1 rfl
  · exact (special_case_precedence nlpEmpty [] 2 { text := "eeh-" }).2.1 (by decide) (by decide)

/-- Witness for claim C6: the word "hola" against an empty tagged unit
and a tagger that returns nothing: the fallback runs without error and
yields the explicit empty annotation. -/
theorem fallback_total_witness :
    annotate_word_step nlpEmpty [] 0 { text := "hola" } =
      ({ text := "hola", pos := some "", lemma' := some "hola", dep := some "",
         head_text := some "", morph := some (.mdict []) }, 0) := by
  have h := fallback_total nlpEmpty [] 0 { text := "hola" }
    ⟨by decide, by decide, by decide⟩ rfl
  rw [h.1]
  rfl

/-- Witness for claim C5: the word "Hola," against the one-token unit
`[hola]`: the direct normalized match is assigned and the cursor
advances to 1. -/
theorem alignment_cursor_policy_witness :
    annotate_word_step nlpEmpty [{ text := "hola", pos := "INTJ", lemma' := "hola" }] 0
        { text := "Hola," } =
      (fill_word_ann { text := "Hola," } { text := "hola", pos := "INTJ", lemma' := "hola" }, 1) := by
  exact (alignment_cursor_policy nlpEmpty [{ text := "hola", pos := "INTJ", lemma' := "hola" }] 0
      { text := "Hola," } ⟨by decide, by decide, by decide⟩).2.1
    { text := "hola", pos := "INTJ", lemma' := "hola" } rfl (by decide)

/-- A word with no annotation fields (the state after the clearing pass). -/
def cleared (w : Word) : Prop :=
  w.pos = none ∧ w.lemma' = none ∧ w.dep = none ∧ w.head_text = none ∧ w.morph = none

/-- The three terminal states of a word after the pipeline: untouched
foreign skip, self-correction (only `pos` set), or full annotation. -/
def word_ok (w : Word) : Prop :=
  (w.foreign = some "1" ∧ cleared w)
  ∨ (w.foreign ≠ some "1" ∧ endsWithStr w.text "-" = true
      ∧ w.pos = some "self-correction" ∧ w.lemma' = none ∧ w.dep = none
      ∧ w.head_text = none ∧ w.morph = none)
  ∨ (w.pos.isSome = true ∧ w.lemma'.isSome = true ∧ w.dep.isSome = true
      ∧ w.head_text.isSome = true ∧ w.morph.isSome = true)

theorem search_or_fallback_core (nlp : String → List Token) (doc : List Token)
    (tok1 : Nat) (w : Word) :
    ((search_or_fallback nlp doc tok1 w).1).core = w.core := by
  rw [search_or_fallback]
  cases h : searchFrom doc (norm_word w) tok1 with
  | some p => cases p; simp [fill_word_ann, Word.core]
  | none => simp [apply_fallback, Word.core]

theorem annotate_word_step_core (nlp : String → List Token) (doc : List Token)
    (tok : Nat) (w : Word) :
    ((annotate_word_step nlp doc tok w).1).core = w.core := by
  rw [annotate_word_step]
  by_cases h1 : w.foreign = some "1"
  · rw [if_pos h1]
  · rw [if_neg h1]
    by_cases h2 : endsWithStr w.text "-" = true
    · rw [if_pos h2]; rfl
    · rw [if_neg h2]
      by_cases h3 : lowerStr w.text = "eeh"
      · rw [if_pos h3]; rfl
      · rw [if_neg h3]
        cases hg : doc[(advanceCursor doc tok)]? with
        | some t =>
            simp only [hg]
            by_cases hd : strip_punct (lowerStr t.text) = norm_word w
            · simp [hd, fill_word_ann, Word.core]
            · simp [hd, search_or_fallback_core]
        | none => simp only [hg]; exact search_or_fallback_core nlp doc _ w

theorem annotateSentWords_core (nlp : String → List Token) (doc : List Token) :
    ∀ (tok : Nat) (sent : List Word),
      (annotateSentWords nlp doc tok sent).map Word.core = sent.map Word.core := by
  intro tok sent
  induction sent generalizing tok with
  | nil => rfl
  | cons w rest ih =>
      simp [annotateSentWords, annotate_word_step_core, ih]

theorem annoLoop_core (nlp : String → List Token) :
    ∀ (sl : List (List Word)) (prev : List Word),
      ((annoLoop nlp prev sl).flatten).map Word.core = (sl.flatten).map Word.core := by
  intro sl
  induction sl with
  | nil => intro prev; rfl
  | cons sent rest ih =>
      intro prev
      simp [annoLoop, annotateSentWords_core, ih]

theorem annotate_words_core (nlp : String → List Token) (wl : List Word) :
    (annotate_words nlp wl).map Word.core = wl.map Word.core := by
  rw [annotate_words]
  by_cases h : wl.isEmpty
  · rw [if_pos h]
  · rw [if_neg h, annoLoop_core, split_into_sentences_join]

theorem clear_word_core (w : Word) : (clear_word w).core = w.core := rfl

/-- A word produced by one alignment step from a cleared word is in one
of the three terminal states. -/
theorem annotate_word_step_word_ok (nlp : String → List Token) (doc : List Token)
    (tok : Nat) (w : Word) (hc : cleared w) :
    word_ok ((annotate_word_step nlp doc tok w).1) := by
  obtain ⟨hp, hl, hd, hh, hm⟩ := hc
  rw [annotate_word_step]
  by_cases h1 : w.foreign = some "1"
  · rw [if_pos h1]
    exact Or.inl ⟨h1, hp, hl, hd, hh, hm⟩
  · rw [if_neg h1]
    by_cases h2 : endsWithStr w.text "-" = true
    · rw [if_pos h2]
      exact Or.inr (Or.inl ⟨h1, h2, rfl, hl, hd, hh, hm⟩)
    · rw [if_neg h2]
      by_cases h3 : lowerStr w.text = "eeh"
      · rw [if_pos h3]
        exact Or.inr (Or.inr ⟨rfl, rfl, rfl, rfl, rfl⟩)
      · rw [if_neg h3]
        cases hg : doc[(advanceCursor doc tok)]? with
        | some t =>
            simp only [hg]
            by_cases hdm : strip_punct (lowerStr t.text) = norm_word w
            · simp only [if_pos hdm]
              exact Or.inr (Or.inr ⟨rfl, rfl, rfl, rfl, rfl⟩)
            · rw [if_neg hdm, search_or_fallback]
              cases hs : searchFrom doc (norm_word w) (advanceCursor doc tok) with
              | some p =>
                  cases p
                  exact Or.inr (Or.inr ⟨rfl, rfl, rfl, rfl, rfl⟩)
              | none => exact Or.inr (Or.inr ⟨rfl, rfl, rfl, rfl, rfl⟩)
        | none =>
            simp only [hg]
            rw [search_or_fallback]
            cases hs : searchFrom doc (norm_word w) (advanceCursor doc tok) with
            | some p =>
                cases p
                exact Or.inr (Or.inr ⟨rfl, rfl, rfl, rfl, rfl⟩)
            | none => exact Or.inr (Or.inr ⟨rfl, rfl, rfl, rfl, rfl⟩)

theorem annotateSentWords_word_ok (nlp : String → List Token) (doc : List Token) :
    ∀ (tok : Nat) (sent : List Word), (∀ w ∈ sent, cleared w) →
      ∀ w' ∈ annotateSentWords nlp doc tok sent, word_ok w' := by
  intro tok sent
  induction sent generalizing tok with
  | nil => intro _ w' hw'; simp [annotateSentWords] at hw'
  | cons w rest ih =>
      intro hall w' hw'
      rw [annotateSentWords] at hw'
      rcases List.mem_cons.mp hw' with h | h
      · rw [h]
        exact annotate_word_step_word_ok nlp doc tok w (hall w (by simp))
      · exact ih _ (fun x hx => hall x (by simp [hx])) w' h

theorem annoLoop_cons (nlp : String → List Token) (prev sent : List Word)
    (rest : List (List Word)) :
    annoLoop nlp prev (sent :: rest) =
      annotateSentWords nlp (nlp (ctx_string (prev ++ sent ++ rest.headD []))) 0 sent
        :: annoLoop nlp sent rest := by
  cases rest <;> rfl

theorem annoLoop_word_ok (nlp : String → List Token) :
    ∀ (sl : List (List Word)) (prev : List Word),
      (∀ s ∈ sl, ∀ w ∈ s, cleared w) →
      ∀ w' ∈ (annoLoop nlp prev sl).flatten, word_ok w' := by
  intro sl
  induction sl with
  | nil => intro prev _ w' hw'; simp [annoLoop] at hw'
  | cons sent rest ih =>
      intro prev hall w' hw'
      rw [annoLoop_cons] at hw'
      rcases List.mem_flatten.mp hw' with ⟨l, hl, hwl⟩
      rcases List.mem_cons.mp hl with h | h
      · subst h
        exact annotateSentWords_word_ok nlp _ 0 sent
          (fun x hx => hall sent (by simp) x hx) w' hwl
      · exact ih sent (fun s hs x hx => hall s (by simp [hs]) x hx) w'
          (List.mem_flatten.mpr ⟨l, h, hwl⟩)

theorem annotate_words_word_ok (nlp : String → List Token) (wl : List Word)
    (h : ∀ w ∈ wl, cleared w) :
    ∀ w' ∈ annotate_words nlp wl, word_ok w' := by
  intro w' hw'
  rw [annotate_words] at hw'
  by_cases he : wl.isEmpty
  · rw [if_pos he] at hw'
    rw [List.isEmpty_iff.mp he] at hw'
    simp at hw'
  · rw [if_neg he] at hw'
    apply annoLoop_word_ok nlp (split_into_sentences wl) [] ?_ w' hw'
    intro s hs x hx
    apply h
    have : x ∈ (split_into_sentences wl).flatten := List.mem_flatten.mpr ⟨s, hs, hx⟩
    rwa [split_into_sentences_join] at this

theorem set_past_tense_type_fields (w : Word) (label : String) :
    (set_past_tense_type w label).text = w.text
    ∧ (set_past_tense_type w label).foreign = w.foreign
    ∧ (set_past_tense_type w label).pos = w.pos
    ∧ (set_past_tense_type w label).lemma' = w.lemma'
    ∧ (set_past_tense_type w label).dep = w.dep
    ∧ (set_past_tense_type w label).head_text = w.head_text
    ∧ ((set_past_tense_type w label).morph).isSome = true := by
  cases hm : w.morph with
  | none => simp [set_past_tense_type, hm]
  | some mv => cases mv <;> simp [set_past_tense_type, hm]

theorem set_future_type_entry_fields (w : Word) (label : String) (w' : Word)
    (h : set_future_type_entry w label = .ok w') :
    w'.text = w.text ∧ w'.foreign = w.foreign ∧ w'.pos = w.pos
    ∧ w'.lemma' = w.lemma' ∧ w'.dep = w.dep ∧ w'.head_text = w.head_text
    ∧ (w'.morph).isSome = true := by
  cases hm : w.morph with
  | none =>
      rw [set_future_type_entry, hm] at h
      simp at h
      subst h
      simp
  | some mv =>
      cases mv with
      | mdict es =>
          rw [set_future_type_entry, hm] at h
          simp at h
          subst h
          simp
      | mlist xs => rw [set_future_type_entry, hm] at h; simp at h

theorem detectLoop_ok_some (part : Word) (pidx : Nat) :
    ∀ (l : List Word) (j : Nat) (w' : Word),
      detectLoop part pidx l j = .ok (some w') →
      w' = set_past_tense_type part "PerfectoCompuesto" := by
  intro l
  induction l with
  | nil => intro j w' h; simp [detectLoop] at h
  | cons sib rest ih =>
      intro j w' h
      rw [detectLoop] at h
      by_cases hj : j = pidx
      · rw [if_pos hj] at h
        exact ih _ w' h
      · rw [if_neg hj] at h
        by_cases ha : sib.pos = some "AUX"
        · rw [if_pos ha] at h
          cases hg : (sib.morph.getD (.mdict [])).pyGet "Tense" [] with
          | error e => rw [hg] at h; simp [Bind.bind, Except.bind] at h
          | ok tense =>
              rw [hg] at h
              simp only [Bind.bind, Except.bind] at h
              by_cases hc : "Pres" ∈ tense ∧ lowerStr (sib.head_text.getD "") = lowerStr part.text
              · rw [if_pos hc] at h
                simp [pure, Except.pure] at h
                exact h.symm
              · rw [if_neg hc] at h
                exact ih _ w' h
        · rw [if_neg ha] at h
          exact ih _ w' h

/-- A successful run of `classify_past_tense_form` either leaves the
word unchanged or writes exactly one `Past_Tense_Type` label, and the
latter only on a word whose morph was a mapping. -/
theorem classify_shape (w : Word) (pidx : Nat) (seg : List Word) (w' : Word)
    (h : classify_past_tense_form w pidx seg = .ok w') :
    w' = w ∨ ((∃ label, w' = set_past_tense_type w label)
      ∧ ∃ es, w.morph = some (.mdict es)) := by
  cases hm : w.morph with
  | none =>
      rw [classify_past_tense_form, hm] at h
      simp at h
      exact Or.inl h.symm
  | some mv =>
      cases mv with
      | mlist xs =>
          rw [classify_past_tense_form, hm] at h
          simp at h
          exact Or.inl h.symm
      | mdict es =>
          rw [classify_past_tense_form, hm] at h
          simp only [Option.getD_some] at h
          by_cases h1 : "Past" ∉ (es.lookup "Tense").getD []
          · rw [if_pos h1] at h
            simp at h
            exact Or.inl h.symm
          · rw [if_neg h1] at h
            by_cases h2 : "Fin" ∈ (es.lookup "VerbForm").getD []
            · rw [if_pos h2] at h
              simp at h
              exact Or.inr ⟨⟨_, h.symm⟩, es, rfl⟩
            · rw [if_neg h2] at h
              by_cases h3 : "Part" ∈ (es.lookup "VerbForm").getD []
              · rw [if_pos h3] at h
                by_cases h4 : lowerStr (w.head_text.getD "") ∈ PRESENT_FORMS
                · rw [if_pos h4] at h
                  simp at h
                  exact Or.inr ⟨⟨_, h.symm⟩, es, rfl⟩
                · rw [if_neg h4] at h
                  by_cases h5 : lowerStr (w.head_text.getD "") ∈ IMPERFECT_FORMS
                  · rw [if_pos h5] at h
                    simp at h
                    exact Or.inr ⟨⟨_, h.symm⟩, es, rfl⟩
                  · rw [if_neg h5] at h
                    by_cases h6 : lowerStr (w.head_text.getD "") ∈ FUTURE_FORMS
                    · rw [if_pos h6] at h
                      simp at h
                      exact Or.inr ⟨⟨_, h.symm⟩, es, rfl⟩
                    · rw [if_neg h6] at h
                      by_cases h7 : lowerStr (w.head_text.getD "") ∈ COND_FORMS
                      · rw [if_pos h7] at h
                        simp at h
                        exact Or.inr ⟨⟨_, h.symm⟩, es, rfl⟩
                      · rw [if_neg h7] at h
                        cases hd : detect_compound_any_fallback w pidx seg with
                        | error e =>
                            rw [hd] at h
                            simp [Bind.bind, Except.bind] at h
                        | ok r =>
                            rw [hd] at h
                            simp only [Bind.bind, Except.bind] at h
                            cases r with
                            | some w'' =>
                                simp [pure, Except.pure] at h
                                rw [← h]
                                exact Or.inr ⟨⟨"PerfectoCompuesto",
                                  detectLoop_ok_some w pidx seg 0 w'' hd⟩, es, rfl⟩
                            | none =>
                                simp [pure, Except.pure] at h
                                exact Or.inr ⟨⟨_, h.symm⟩, es, rfl⟩
              · rw [if_neg h3] at h
                simp at h
                exact Or.inr ⟨⟨_, h.symm⟩, es, rfl⟩

theorem tense_step_shape (ws : List Word) (i : Nat) (ws' : List Word)
    (h : tense_step ws i = .ok ws') :
    ws' = ws ∨ ∃ w w', ws[i]? = some w
      ∧ classify_past_tense_form w i ws = .ok w' ∧ ws' = ws.set i w' := by
  rw [tense_step] at h
  split at h
  · simp only [Except.ok.injEq] at h
    exact Or.inl h.symm
  · rename_i w hg
    split at h
    · simp only [Except.ok.injEq] at h
      exact Or.inl h.symm
    · rename_i es hm
      split at h
      · rename_i hp
        cases hc : classify_past_tense_form w i ws with
        | error e => rw [hc] at h; simp [Bind.bind, Except.bind] at h
        | ok w' =>
            rw [hc] at h
            simp [Bind.bind, Except.bind, pure, Except.pure] at h
            exact Or.inr ⟨w, w', hg, hc, h.symm⟩
      · simp only [Except.ok.injEq] at h
        exact Or.inl h.symm

theorem future_window_ok_some (w1 w2 w3 : Word) (l : String)
    (h : future_window w1 w2 w3 = .ok (some l)) :
    ∃ es, w3.morph = some (.mdict es) := by
  cases hm : w3.morph with
  | none =>
      exfalso
      rw [future_window, hm] at h
      by_cases hc : w1.pos = some "AUX"
        ∧ (w1.morph.getD (.mdict [])).pyHasKey "Tense" = true
        ∧ lowerStr w2.text = "a" ∧ w2.pos = some "ADP" ∧ w3.pos = some "VERB"
      · rw [if_pos hc] at h
        simp [MorphV.pyGet, Bind.bind, Except.bind, pure, Except.pure] at h
      · rw [if_neg hc] at h
        simp [pure, Except.pure] at h
  | some mv =>
      cases mv with
      | mdict es => exact ⟨es, rfl⟩
      | mlist xs =>
          exfalso
          rw [future_window, hm] at h
          by_cases hc : w1.pos = some "AUX"
            ∧ (w1.morph.getD (.mdict [])).pyHasKey "Tense" = true
            ∧ lowerStr w2.text = "a" ∧ w2.pos = some "ADP" ∧ w3.pos = some "VERB"
          · rw [if_pos hc] at h
            simp [MorphV.pyGet, Bind.bind, Except.bind] at h
          · rw [if_neg hc] at h
            simp [pure, Except.pure] at h

theorem future_step_shape (ws : List Word) (i : Nat) (ws' : List Word)
    (h : future_step ws i = .ok ws') :
    ws' = ws ∨ ∃ w3 l w3', ws[(i + 2)]? = some w3
      ∧ (∃ es, w3.morph = some (.mdict es))
      ∧ set_future_type_entry w3 l = .ok w3' ∧ ws' = ws.set (i + 2) w3' := by
  rw [future_step] at h
  split at h
  · rename_i w1 w2 w3 h1 h2 h3
    cases hw : future_window w1 w2 w3 with
    | error e => rw [hw] at h; simp [Bind.bind, Except.bind] at h
    | ok r =>
        rw [hw] at h
        simp only [Bind.bind, Except.bind] at h
        split at h
        · rename_i l
          split at h
          · simp at h
          · rename_i w3' hs
            simp [pure, Except.pure] at h
            exact Or.inr ⟨w3, l, w3', h3,
              future_window_ok_some w1 w2 w3 l hw, hs, h.symm⟩
        · simp [pure, Except.pure] at h
          exact Or.inl h.symm
  · rename_i hne
    simp only [Except.ok.injEq] at h
    exact Or.inl h.symm

/-- Generic invariant preservation along `List.foldlM` over `Except`. -/
theorem foldlM_inv (P : List Word → Prop)
    (f : List Word → Nat → Except String (List Word))
    (hf : ∀ ws i ws', P ws → f ws i = .ok ws' → P ws') :
    ∀ (l : List Nat) (ws ws'), P ws → List.foldlM f ws l = .ok ws' → P ws' := by
  intro l
  induction l with
  | nil =>
      intro ws ws' hP h
      simp [List.foldlM, pure, Except.pure] at h
      rwa [← h]
  | cons i is ih =>
      intro ws ws' hP h
      rw [List.foldlM] at h
      cases hfi : f ws i with
      | error e => rw [hfi] at h; simp [Bind.bind, Except.bind] at h
      | ok ws1 =>
          rw [hfi] at h
          simp only [Bind.bind, Except.bind] at h
          exact ih ws1 ws' (hf ws i ws1 hP hfi) h

theorem mapSegsM_mem (f : List Word → Except String (List Word)) :
    ∀ (segs segs' : List Segment), mapSegsM f segs = .ok segs' →
      ∀ s' ∈ segs', ∃ s ∈ segs, ∃ ws', f s.words = .ok ws'
        ∧ s' = { s with words := ws' } := by
  intro segs
  induction segs with
  | nil =>
      intro segs' h s' hs'
      simp [mapSegsM] at h
      subst h
      simp at hs'
  | cons s rest ih =>
      intro segs' h s' hs'
      rw [mapSegsM] at h
      cases hf : f s.words with
      | error e => rw [hf] at h; simp [Bind.bind, Except.bind] at h
      | ok ws' =>
          rw [hf] at h
          simp only [Bind.bind, Except.bind] at h
          cases hr : mapSegsM f rest with
          | error e => rw [hr] at h; simp at h
          | ok rest' =>
              rw [hr] at h
              simp only [pure, Except.pure, Except.ok.injEq] at h
              subst h
              rcases List.mem_cons.mp hs' with hh | hh
              · exact ⟨s, by simp, ws', hf, hh⟩
              · rcases ih rest' hr s' hh with ⟨s0, hs0, ws0, hws0, he⟩
                exact ⟨s0, by simp [hs0], ws0, hws0, he⟩

theorem mapSegsM_pointwise (f : List Word → Except String (List Word)) :
    ∀ (segs segs' : List Segment), mapSegsM f segs = .ok segs' →
      segs'.length = segs.length
      ∧ ∀ (j : Nat) (s : Segment), segs[j]? = some s →
          ∃ ws', f s.words = .ok ws' ∧ segs'[j]? = some { s with words := ws' } := by
  intro segs
  induction segs with
  | nil =>
      intro segs' h
      simp [mapSegsM] at h
      subst h
      exact ⟨rfl, by intro j s hj; simp at hj⟩
  | cons s rest ih =>
      intro segs' h
      rw [mapSegsM] at h
      cases hf : f s.words with
      | error e => rw [hf] at h; simp [Bind.bind, Except.bind] at h
      | ok ws' =>
          rw [hf] at h
          simp only [Bind.bind, Except.bind] at h
          cases hr : mapSegsM f rest with
          | error e => rw [hr] at h; simp at h
          | ok rest' =>
              rw [hr] at h
              simp only [pure, Except.pure, Except.ok.injEq] at h
              subst h
              rcases ih rest' hr with ⟨hlen, hpt⟩
              refine ⟨by simp [hlen], ?_⟩
              intro j s0 hj
              cases j with
              | zero =>
                  have hs0 : s = s0 := by simpa using hj
                  subst hs0
                  exact ⟨ws', hf, by simp⟩
              | succ j' =>
                  simp only [List.getElem?_cons_succ] at hj
                  rcases hpt j' s0 hj with ⟨ws0, hws0, hg⟩
                  exact ⟨ws0, hws0, by simpa using hg⟩

/-- Replacing an element by one with the same image leaves the mapped
list unchanged. -/
theorem map_set_eq {α β : Type} (f : α → β) :
    ∀ (l : List α) (i : Nat) (a b : α), l[i]? = some a → f b = f a →
      (l.set i b).map f = l.map f := by
  intro l
  induction l with
  | nil => intro i a b h _; simp at h
  | cons x rest ih =>
      intro i a b h hf
      cases i with
      | zero =>
          simp at h
          simp [List.set, hf, h]
      | succ i' =>
          simp at h
          simp [List.set, ih i' a b h hf]

theorem classify_word_ok (w : Word) (pidx : Nat) (seg : List Word) (w' : Word)
    (h : classify_past_tense_form w pidx seg = .ok w') (hok : word_ok w) :
    word_ok w' := by
  rcases classify_shape w pidx seg w' h with rfl | ⟨⟨label, rfl⟩, es, hm⟩
  · exact hok
  · obtain ⟨ht, hf, hp, hl, hd, hh, hms⟩ := set_past_tense_type_fields w label
    rcases hok with ⟨_, _, _, _, _, hmn⟩ | ⟨_, _, _, _, _, _, hmn⟩ | ⟨p1, p2, p3, p4, _⟩
    · rw [hm] at hmn; cases hmn
    · rw [hm] at hmn; cases hmn
    · exact Or.inr (Or.inr ⟨by rw [hp]; exact p1, by rw [hl]; exact p2,
        by rw [hd]; exact p3, by rw [hh]; exact p4, hms⟩)

theorem classify_core (w : Word) (pidx : Nat) (seg : List Word) (w' : Word)
    (h : classify_past_tense_form w pidx seg = .ok w') : w'.core = w.core := by
  rcases classify_shape w pidx seg w' h with rfl | ⟨⟨label, rfl⟩, _, _⟩
  · rfl
  · obtain ⟨ht, hf, _⟩ := set_past_tense_type_fields w label
    simp [Word.core, ht, hf]

theorem tense_step_words_ok (ws : List Word) (i : Nat) (ws' : List Word)
    (hP : ∀ w ∈ ws, word_ok w) (h : tense_step ws i = .ok ws') :
    ∀ w ∈ ws', word_ok w := by
  rcases tense_step_shape ws i ws' h with rfl | ⟨w, w', hg, hc, rfl⟩
  · exact hP
  · intro x hx
    rcases List.mem_or_eq_of_mem_set hx with hx' | rfl
    · exact hP x hx'
    · exact classify_word_ok w i ws x hc (hP w (List.getElem?_mem hg))

theorem tense_step_core (ws : List Word) (i : Nat) (ws' : List Word)
    (h : tense_step ws i = .ok ws') : ws'.map Word.core = ws.map Word.core := by
  rcases tense_step_shape ws i ws' h with rfl | ⟨w, w', hg, hc, rfl⟩
  · rfl
  · exact map_set_eq Word.core ws i w w' hg (classify_core w i ws w' hc)

theorem future_step_words_ok (ws : List Word) (i : Nat) (ws' : List Word)
    (hP : ∀ w ∈ ws, word_ok w) (h : future_step ws i = .ok ws') :
    ∀ w ∈ ws', word_ok w := by
  rcases future_step_shape ws i ws' h with rfl | ⟨w3, l, w3', hg, ⟨es, hm⟩, hs, rfl⟩
  · exact hP
  · intro x hx
    rcases List.mem_or_eq_of_mem_set hx with hx' | rfl
    · exact hP x hx'
    · obtain ⟨ht, hf, hp, hl, hd, hh, hms⟩ := set_future_type_entry_fields w3 l x hs
      rcases hP w3 (List.getElem?_mem hg) with
        ⟨_, _, _, _, _, hmn⟩ | ⟨_, _, _, _, _, _, hmn⟩ | ⟨p1, p2, p3, p4, _⟩
      · rw [hm] at hmn; cases hmn
      · rw [hm] at hmn; cases hmn
      · exact Or.inr (Or.inr ⟨by rw [hp]; exact p1, by rw [hl]; exact p2,
          by rw [hd]; exact p3, by rw [hh]; exact p4, hms⟩)

theorem future_step_core (ws : List Word) (i : Nat) (ws' : List Word)
    (h : future_step ws i = .ok ws') : ws'.map Word.core = ws.map Word.core := by
  rcases future_step_shape ws i ws' h with rfl | ⟨w3, l, w3', hg, _, hs, rfl⟩
  · rfl
  · obtain ⟨ht, hf, _⟩ := set_future_type_entry_fields w3 l w3' hs
    exact map_set_eq Word.core ws (i + 2) w3 w3' hg (by simp [Word.core, ht, hf])

theorem post_tenses_words_ok (ws ws' : List Word)
    (hP : ∀ w ∈ ws, word_ok w) (h : post_process_tenses_words ws = .ok ws') :
    ∀ w ∈ ws', word_ok w :=
  foldlM_inv (fun v => ∀ w ∈ v, word_ok w) tense_step
    (fun v i v' hv hstep => tense_step_words_ok v i v' hv hstep)
    (List.range ws.length) ws ws' hP h

theorem post_tenses_words_core (ws ws' : List Word)
    (h : post_process_tenses_words ws = .ok ws') :
    ws'.map Word.core = ws.map Word.core :=
  foldlM_inv (fun v => v.map Word.core = ws.map Word.core) tense_step
    (fun v i v' hv hstep => by
      show v'.map Word.core = ws.map Word.core
      rw [tense_step_core v i v' hstep]; exact hv)
    (List.range ws.length) ws ws' rfl h

theorem post_futures_words_ok (ws ws' : List Word)
    (hP : ∀ w ∈ ws, word_ok w) (h : post_process_futures_words ws = .ok ws') :
    ∀ w ∈ ws', word_ok w :=
  foldlM_inv (fun v => ∀ w ∈ v, word_ok w) future_step
    (fun v i v' hv hstep => future_step_words_ok v i v' hv hstep)
    (List.range (ws.length - 2)) ws ws' hP h

theorem post_futures_words_core (ws ws' : List Word)
    (h : post_process_futures_words ws = .ok ws') :
    ws'.map Word.core = ws.map Word.core :=
  foldlM_inv (fun v => v.map Word.core = ws.map Word.core) future_step
    (fun v i v' hv hstep => by
      show v'.map Word.core = ws.map Word.core
      rw [future_step_core v i v' hstep]; exact hv)
    (List.range (ws.length - 2)) ws ws' rfl h

theorem post_tenses_unfold (d d' : Transcript)
    (h : post_process_compound_tenses d = .ok d') :
    ∃ segs, mapSegsM post_process_tenses_words d.segments = .ok segs
      ∧ d' = { d with segments := segs } := by
  rw [post_process_compound_tenses] at h
  cases hm : mapSegsM post_process_tenses_words d.segments with
  | error e => rw [hm] at h; simp [Bind.bind, Except.bind] at h
  | ok segs =>
      rw [hm] at h
      simp [Bind.bind, Except.bind, pure, Except.pure] at h
      exact ⟨segs, rfl, h.symm⟩

theorem post_futures_unfold (d d' : Transcript)
    (h : post_process_compound_futures d = .ok d') :
    ∃ segs, mapSegsM post_process_futures_words d.segments = .ok segs
      ∧ d' = { d with segments := segs } := by
  rw [post_process_compound_futures] at h
  cases hm : mapSegsM post_process_futures_words d.segments with
  | error e => rw [hm] at h; simp [Bind.bind, Except.bind] at h
  | ok segs =>
      rw [hm] at h
      simp [Bind.bind, Except.bind, pure, Except.pure] at h
      exact ⟨segs, rfl, h.symm⟩

theorem post_tenses_transcript_ok (d d' : Transcript)
    (h : post_process_compound_tenses d = .ok d')
    (hP : ∀ s ∈ d.segments, ∀ w ∈ s.words, word_ok w) :
    ∀ s' ∈ d'.segments, ∀ w ∈ s'.words, word_ok w := by
  obtain ⟨segs, hm, rfl⟩ := post_tenses_unfold d d' h
  intro s' hs' w hw
  obtain ⟨s, hs, ws', hws', rfl⟩ := mapSegsM_mem _ d.segments segs hm s' hs'
  exact post_tenses_words_ok s.words ws' (hP s hs) hws' w hw

theorem post_futures_transcript_ok (d d' : Transcript)
    (h : post_process_compound_futures d = .ok d')
    (hP : ∀ s ∈ d.segments, ∀ w ∈ s.words, word_ok w) :
    ∀ s' ∈ d'.segments, ∀ w ∈ s'.words, word_ok w := by
  obtain ⟨segs, hm, rfl⟩ := post_futures_unfold d d' h
  intro s' hs' w hw
  obtain ⟨s, hs, ws', hws', rfl⟩ := mapSegsM_mem _ d.segments segs hm s' hs'
  exact post_futures_words_ok s.words ws' (hP s hs) hws' w hw

theorem mapSegsM_core (f : List Word → Except String (List Word))
    (hf : ∀ ws ws', f ws = .ok ws' → ws'.map Word.core = ws.map Word.core)
    (segs segs' : List Segment) (h : mapSegsM f segs = .ok segs') :
    segs'.map (fun s => s.words.map Word.core)
      = segs.map (fun s => s.words.map Word.core) := by
  obtain ⟨hlen, hpt⟩ := mapSegsM_pointwise f segs segs' h
  apply List.ext_getElem?_iff.mpr
  intro n
  rw [List.getElem?_map, List.getElem?_map]
  cases hg : segs[n]? with
  | none =>
      have hn : segs.length ≤ n := by
        by_contra hc
        push_neg at hc
        rcases List.getElem?_eq_some_iff.mpr ⟨hc, rfl⟩ with hsome
        rw [hg] at hsome
        cases hsome
      have hsn : segs'[n]? = none := List.getElem?_eq_none (by omega)
      simp only [hsn, hg, Option.map_none']
  | some s =>
      obtain ⟨ws', hws', hsg⟩ := hpt n s hg
      simp only [hsg, hg, Option.map_some']
      simpa using hf s.words ws' hws'


theorem post_tenses_transcript_core (d d' : Transcript)
    (h : post_process_compound_tenses d = .ok d') :
    d'.segments.map (fun s => s.words.map Word.core)
      = d.segments.map (fun s => s.words.map Word.core) := by
  obtain ⟨segs, hm, rfl⟩ := post_tenses_unfold d d' h
  exact mapSegsM_core post_process_tenses_words post_tenses_words_core
    d.segments segs hm

theorem post_futures_transcript_core (d d' : Transcript)
    (h : post_process_compound_futures d = .ok d') :
    d'.segments.map (fun s => s.words.map Word.core)
      = d.segments.map (fun s => s.words.map Word.core) := by
  obtain ⟨segs, hm, rfl⟩ := post_futures_unfold d d' h
  exact mapSegsM_core post_process_futures_words post_futures_words_core
    d.segments segs hm

theorem annotate_core_unfold (nlp : String → List Token) (d out : Transcript)
    (h : annotate_core nlp d = .ok out) :
    ∃ t1, post_process_compound_tenses
        { d with segments :=
            d.segments.map (fun s => { s with words := annotate_words nlp s.words }) }
        = .ok t1
      ∧ post_process_compound_futures t1 = .ok out := by
  rw [annotate_core] at h
  cases h1 : post_process_compound_tenses
      { d with segments :=
          d.segments.map (fun s => { s with words := annotate_words nlp s.words }) } with
  | error e => rw [h1] at h; simp [Bind.bind, Except.bind] at h
  | ok t1 =>
      rw [h1] at h
      simp only [Bind.bind, Except.bind] at h
      exact ⟨t1, rfl, h⟩

theorem clear_word_cleared (w : Word) : cleared (clear_word w) :=
  ⟨rfl, rfl, rfl, rfl, rfl⟩

theorem clear_annotations_cleared (data : Transcript) :
    ∀ s ∈ (clear_annotations data).segments, ∀ w ∈ s.words, cleared w := by
  intro s hs w hw
  rw [clear_annotations] at hs
  simp at hs
  obtain ⟨s0, _, rfl⟩ := hs
  simp at hw
  obtain ⟨w0, _, rfl⟩ := hw
  exact clear_word_cleared w0

theorem annotate_segments_ok (nlp : String → List Token) (d : Transcript)
    (hc : ∀ s ∈ d.segments, ∀ w ∈ s.words, cleared w) :
    ∀ s' ∈ d.segments.map (fun s => { s with words := annotate_words nlp s.words }),
      ∀ w ∈ s'.words, word_ok w := by
  intro s' hs' w hw
  simp at hs'
  obtain ⟨s0, hs0, rfl⟩ := hs'
  exact annotate_words_word_ok nlp s0.words (hc s0 hs0) w hw

/-- Claim C1 (amended): after `annotate_file`, every word of every
segment is in one of exactly three states: foreign-flagged with no
annotation field set; non-foreign with text ending in `-` and only
`pos = "self-correction"` set; or all five annotation fields set
(part-of-speech, lemma, dependency, head text, morphology bag).  The
claim as frozen omitted the second state; see the counterexample. -/
theorem annotation_totality (nlp : String → List Token) (data out : Transcript)
    (h : annotate_file nlp data = .ok out) :
    ∀ s ∈ out.segments, ∀ w ∈ s.words, word_ok w := by
  rw [annotate_file] at h
  obtain ⟨t1, h1, h2⟩ := annotate_core_unfold nlp (clear_annotations data) out h
  have hA := annotate_segments_ok nlp (clear_annotations data)
    (clear_annotations_cleared data)
  exact post_futures_transcript_ok t1 out h2
    (post_tenses_transcript_ok _ t1 h1 hA)

/-- The C1 counterexample transcript: one segment with the single
self-interrupted word "tu-". -/
def c1data : Transcript := ⟨[⟨"s1", [{ text := "tu-" }]⟩]⟩

/-- Output of the pipeline on `c1data`. -/
def c1out : Transcript := ⟨[⟨"s1", [{ text := "tu-", pos := some "self-correction" }]⟩]⟩

/-- Claim C1 counterexample: running the pipeline on the one-word
transcript "tu-" (not foreign-flagged) yields a word with `pos` set to
the self-correction marker but no lemma (nor dependency, head text or
morphology): a proper subset of the annotation fields, contradicting
the claim that every non-foreign word ends with all fields set. -/
theorem annotation_totality_counterexample :
    annotate_file nlpEmpty c1data = .ok c1out
    ∧ ((c1out.segments.headD {}).words.headD {}).foreign ≠ some "1"
    ∧ ((c1out.segments.headD {}).words.headD {}).pos.isSome = true
    ∧ ((c1out.segments.headD {}).words.headD {}).lemma' = none
    ∧ ((c1out.segments.headD {}).words.headD {}).dep = none
    ∧ ((c1out.segments.headD {}).words.headD {}).head_text = none
    ∧ ((c1out.segments.headD {}).words.headD {}).morph = none :=
  ⟨rfl, by decide, rfl, rfl, rfl, rfl, rfl⟩

/-- Witness for claim C1: the amended trichotomy holds for the word
produced by the pipeline on the concrete transcript `c1data`. -/
theorem annotation_totality_witness :
    word_ok { text := "tu-", pos := some "self-correction" } :=
  annotation_totality nlpEmpty c1data c1out rfl
    ⟨"s1", [{ text := "tu-", pos := some "self-correction" }]⟩ (by simp [c1out])
    { text := "tu-", pos := some "self-correction" } (by simp)

theorem annotate_segments_core (nlp : String → List Token) (d : Transcript) :
    (d.segments.map (fun s => { s with words := annotate_words nlp s.words })).map
        (fun s => s.words.map Word.core)
      = d.segments.map (fun s => s.words.map Word.core) := by
  rw [List.map_map]
  apply List.map_congr_left
  intro s _
  simp [annotate_words_core]

theorem clear_annotations_core (data : Transcript) :
    (clear_annotations data).segments.map (fun s => s.words.map Word.core)
      = data.segments.map (fun s => s.words.map Word.core) := by
  rw [clear_annotations]
  simp only [List.map_map]
  apply List.map_congr_left
  intro s _
  simp only [Function.comp]
  rw [List.map_map]
  apply List.map_congr_left
  intro w _
  exact clear_word_core w

/-- Claim C2: segmentation partitions each segment's word list exactly
(joining the sentences restores the list), and the full pipeline
preserves, segment by segment, the length and order of the word stream:
the per-position word identities (text, foreign flag) after
`annotate_file` equal those before. -/
theorem word_stream_preserved :
    (∀ wl : List Word, (split_into_sentences wl).flatten = wl)
    ∧ ∀ (nlp : String → List Token) (data out : Transcript),
        annotate_file nlp data = .ok out →
        out.segments.map (fun s => s.words.map Word.core)
          = data.segments.map (fun s => s.words.map Word.core) := by
  refine ⟨split_into_sentences_join, ?_⟩
  intro nlp data out h
  rw [annotate_file] at h
  obtain ⟨t1, h1, h2⟩ := annotate_core_unfold nlp (clear_annotations data) out h
  calc out.segments.map (fun s => s.words.map Word.core)
      = t1.segments.map (fun s => s.words.map Word.core) :=
        post_futures_transcript_core t1 out h2
    _ = ((clear_annotations data).segments.map
          (fun s => { s with words := annotate_words nlp s.words })).map
            (fun s => s.words.map Word.core) :=
        post_tenses_transcript_core _ t1 h1
    _ = (clear_annotations data).segments.map (fun s => s.words.map Word.core) :=
        annotate_segments_core nlp (clear_annotations data)
    _ = data.segments.map (fun s => s.words.map Word.core) :=
        clear_annotations_core data

/-- Witness for claim C2: on the concrete transcript `c1data` the word
stream is preserved by the pipeline. -/
theorem word_stream_preserved_witness :
    (split_into_sentences [{ text := "tu-" }]).flatten = [{ text := "tu-" }]
    ∧ c1out.segments.map (fun s => s.words.map Word.core)
        = c1data.segments.map (fun s => s.words.map Word.core) :=
  ⟨word_stream_preserved.1 [{ text := "tu-" }],
   word_stream_preserved.2 nlpEmpty c1data c1out rfl⟩

/-- The feature entries of a word whose morph is a well-formed dict
(empty for a missing or malformed morph). -/
def dict_entries (w : Word) : List (String × List String) :=
  match w.morph with
  | some (.mdict es) => es
  | _ => []

/-- The Tense values of a word's (well-formed) morph. -/
def word_tense_vals (w : Word) : List String :=
  ((dict_entries w).lookup "Tense").getD []

/-- A word whose morph key is absent or holds a well-formed dict. -/
def clean_morph (w : Word) : Bool :=
  match w.morph with
  | some (.mlist _) => false
  | _ => true

theorem lookup_map_replace (k : String) (v : List String) :
    ∀ es : List (String × List String), (es.lookup k).isSome = true →
      (es.map (fun p => if p.1 = k then (k, v) else p)).lookup k = some v := by
  intro es
  induction es with
  | nil => intro h; simp at h
  | cons p rest ih =>
      obtain ⟨a, b⟩ := p
      intro h
      by_cases hp : a = k
      · subst hp
        simp only [List.map_cons]
        rw [if_pos trivial]
        simp [List.lookup]
      · have hne : (k == a) = false := by
          simp [beq_iff_eq]
          intro he
          exact hp he.symm
        have h2 : (rest.lookup k).isSome = true := by
          rw [List.lookup] at h
          rwa [hne] at h
        simp only [List.map_cons, if_neg hp]
        rw [List.lookup, hne]
        exact ih h2

theorem lookup_append_new (k : String) (v : List String) :
    ∀ es : List (String × List String), (es.lookup k).isSome = false →
      ((es ++ [(k, v)]).lookup k) = some v := by
  intro es
  induction es with
  | nil => simp [List.lookup]
  | cons p rest ih =>
      intro h
      by_cases hp : (k == p.1) = true
      · rw [List.lookup, hp] at h
        simp at h
      · have hne : (k == p.1) = false := by
          cases hb : (k == p.1)
          · rfl
          · exact absurd hb hp
        rw [List.lookup, hne] at h
        rw [List.cons_append, List.lookup, hne]
        exact ih h

/-- After a dict write, looking the key up returns the new value. -/
theorem insertKey_lookup (es : List (String × List String)) (k : String)
    (v : List String) : (insertKey es k v).lookup k = some v := by
  rw [insertKey]
  cases h : (es.lookup k).isSome with
  | true =>
      rw [if_pos rfl]
      exact lookup_map_replace k v es h
  | false =>
      rw [if_neg (by simp)]
      exact lookup_append_new k v es h

theorem dict_entries_eq (w : Word) (es : List (String × List String))
    (hm : w.morph = some (.mdict es)) : dict_entries w = es := by
  simp [dict_entries, hm]

theorem pyGet_tense_clean (w : Word) (hc : clean_morph w = true) :
    (w.morph.getD (.mdict [])).pyGet "Tense" [] = .ok (word_tense_vals w) := by
  cases hm : w.morph with
  | none => simp [MorphV.pyGet, word_tense_vals, dict_entries, hm]
  | some mv =>
      cases mv with
      | mdict es => simp [MorphV.pyGet, word_tense_vals, dict_entries, hm]
      | mlist xs => simp [clean_morph, hm] at hc

/-- The claim-side rendering of the same-segment auxiliary scan: some
word at an index other than the participle's has pos AUX, `Pres` among
its Tense values, and case-folded head text equal to the participle's
case-folded text. -/
def scanB (part : Word) (pidx : Nat) : List Word → Nat → Bool
  | [], _ => false
  | sib :: rest, j =>
      if j ≠ pidx ∧ sib.pos = some "AUX" ∧ "Pres" ∈ word_tense_vals sib
          ∧ lowerStr (sib.head_text.getD "") = lowerStr part.text then true
      else scanB part pidx rest (j + 1)

theorem detectLoop_clean (part : Word) (pidx : Nat) :
    ∀ (l : List Word) (j : Nat), (∀ s ∈ l, clean_morph s = true) →
      detectLoop part pidx l j =
        .ok (if scanB part pidx l j then
          some (set_past_tense_type part "PerfectoCompuesto") else none) := by
  intro l
  induction l with
  | nil => intro j _; simp [detectLoop, scanB]
  | cons sib rest ih =>
      intro j hc
      have hcs : clean_morph sib = true := hc sib (by simp)
      have hcr : ∀ s ∈ rest, clean_morph s = true := fun s hs => hc s (by simp [hs])
      by_cases hfull : j ≠ pidx ∧ sib.pos = some "AUX" ∧ "Pres" ∈ word_tense_vals sib
          ∧ lowerStr (sib.head_text.getD "") = lowerStr part.text
      · have hsb : scanB part pidx (sib :: rest) j = true := by
          rw [scanB, if_pos hfull]
        rw [hsb, if_pos rfl, detectLoop, if_neg hfull.1, if_pos hfull.2.1,
          pyGet_tense_clean sib hcs]
        simp only [Bind.bind, Except.bind]
        rw [if_pos ⟨hfull.2.2.1, hfull.2.2.2⟩]
        rfl
      · have hsb : scanB part pidx (sib :: rest) j = scanB part pidx rest (j + 1) := by
          rw [scanB, if_neg hfull]
        rw [hsb, detectLoop]
        by_cases hj : j = pidx
        · rw [if_pos hj]
          exact ih (j + 1) hcr
        · rw [if_neg hj]
          by_cases ha : sib.pos = some "AUX"
          · rw [if_pos ha, pyGet_tense_clean sib hcs]
            simp only [Bind.bind, Except.bind]
            have hnc : ¬("Pres" ∈ word_tense_vals sib
                ∧ lowerStr (sib.head_text.getD "") = lowerStr part.text) := by
              intro hcond
              exact hfull ⟨hj, ha, hcond.1, hcond.2⟩
            rw [if_neg hnc]
            exact ih (j + 1) hcr
          · rw [if_neg ha]
            exact ih (j + 1) hcr

/-- The claim-side past-tense decision order of §4.5: finite past is
simple past; a participle is resolved through the four haber lexicons
on its case-folded head text, then through a same-segment auxiliary
scan (`PerfectoCompuesto` on success, `OtroCompuesto` otherwise);
a past form that is neither finite nor participle is `PastOther`. -/
def c3_label (w : Word) (pidx : Nat) (seg : List Word) : String :=
  let vf := ((dict_entries w).lookup "VerbForm").getD []
  if "Fin" ∈ vf then "PerfectoSimple"
  else if "Part" ∈ vf then
    let head := lowerStr (w.head_text.getD "")
    if head ∈ PRESENT_FORMS then "PerfectoCompuesto"
    else if head ∈ IMPERFECT_FORMS then "Pluscuamperfecto"
    else if head ∈ FUTURE_FORMS then "FuturoPerfecto"
    else if head ∈ COND_FORMS then "CondicionalPerfecto"
    else if scanB w pidx seg 0 then "PerfectoCompuesto" else "OtroCompuesto"
  else "PastOther"

/-- Claim C3: for a word whose morph is a mapping with `Past` among its
Tense values (and a segment whose morph bags are well formed, so the
scan can read them), the classifier writes exactly the
`Past_Tense_Type` label given by the claim's decision order
(`c3_label`), and that label is readable back from the morph. -/
theorem past_tense_decision_order (w : Word) (pidx : Nat) (seg : List Word)
    (es : List (String × List String)) (hm : w.morph = some (.mdict es))
    (hp : "Past" ∈ (es.lookup "Tense").getD [])
    (hclean : ∀ s ∈ seg, clean_morph s = true) :
    classify_past_tense_form w pidx seg
      = .ok (set_past_tense_type w (c3_label w pidx seg))
    ∧ (dict_entries (set_past_tense_type w (c3_label w pidx seg))).lookup
        "Past_Tense_Type" = some [c3_label w pidx seg] := by
  constructor
  · rw [classify_past_tense_form, hm, c3_label]
    simp only [Option.getD_some, dict_entries_eq w es hm]
    rw [if_neg (fun hno => hno hp)]
    by_cases h2 : "Fin" ∈ (es.lookup "VerbForm").getD []
    · rw [if_pos h2, if_pos h2]
    · rw [if_neg h2, if_neg h2]
      by_cases h3 : "Part" ∈ (es.lookup "VerbForm").getD []
      · rw [if_pos h3, if_pos h3]
        by_cases h4 : lowerStr (w.head_text.getD "") ∈ PRESENT_FORMS
        · rw [if_pos h4, if_pos h4]
        · rw [if_neg h4, if_neg h4]
          by_cases h5 : lowerStr (w.head_text.getD "") ∈ IMPERFECT_FORMS
          · rw [if_pos h5, if_pos h5]
          · rw [if_neg h5, if_neg h5]
            by_cases h6 : lowerStr (w.head_text.getD "") ∈ FUTURE_FORMS
            · rw [if_pos h6, if_pos h6]
            · rw [if_neg h6, if_neg h6]
              by_cases h7 : lowerStr (w.head_text.getD "") ∈ COND_FORMS
              · rw [if_pos h7, if_pos h7]
              · rw [if_neg h7, if_neg h7]
                rw [detect_compound_any_fallback, detectLoop_clean w pidx seg 0 hclean]
                by_cases h8 : scanB w pidx seg 0 = true
                · rw [if_pos h8, if_pos h8]
                  rfl
                · rw [if_neg h8, if_neg h8]
                  rfl
      · rw [if_neg h3, if_neg h3]
  · rw [set_past_tense_type, hm]
    simp only [dict_entries]
    exact insertKey_lookup es "Past_Tense_Type" [c3_label w pidx seg]

/-- The C3 particular case: participle "comido" governed by "había". -/
def wHabiaPart : Word :=
  { text := "comido", head_text := some "había",
    morph := some (.mdict [("Tense", ["Past"]), ("VerbForm", ["Part"])]) }

/-- The C3 particular case: participle "comido" governed by "ha". -/
def wHaPart : Word :=
  { text := "comido", head_text := some "ha",
    morph := some (.mdict [("Tense", ["Past"]), ("VerbForm", ["Part"])]) }

/-- Witness for claim C3: with head text "había" the participle is
labelled Pluscuamperfecto, with head text "ha" PerfectoCompuesto. -/
theorem past_tense_decision_order_witness :
    classify_past_tense_form wHabiaPart 1 [{ text := "había" }, wHabiaPart]
      = .ok (set_past_tense_type wHabiaPart "Pluscuamperfecto")
    ∧ classify_past_tense_form wHaPart 1 [{ text := "ha" }, wHaPart]
      = .ok (set_past_tense_type wHaPart "PerfectoCompuesto") := by
  constructor
  · have h := (past_tense_decision_order wHabiaPart 1 [{ text := "había" }, wHabiaPart]
      [("Tense", ["Past"]), ("VerbForm", ["Part"])] rfl (by decide) (by decide)).1
    rw [h]
    rfl
  · have h := (past_tense_decision_order wHaPart 1 [{ text := "ha" }, wHaPart]
      [("Tense", ["Past"]), ("VerbForm", ["Part"])] rfl (by decide) (by decide)).1
    rw [h]
    rfl

theorem pyHasKey_clean (w : Word) (hc : clean_morph w = true) :
    (w.morph.getD (.mdict [])).pyHasKey "Tense"
      = ((dict_entries w).lookup "Tense").isSome := by
  cases hm : w.morph with
  | none => simp [MorphV.pyHasKey, dict_entries, hm]
  | some mv =>
      cases mv with
      | mdict es => simp [MorphV.pyHasKey, dict_entries, hm]
      | mlist xs => simp [clean_morph, hm] at hc

theorem pyGet_clean (w : Word) (k : String) (hc : clean_morph w = true) :
    (w.morph.getD (.mdict [])).pyGet k []
      = .ok (((dict_entries w).lookup k).getD []) := by
  cases hm : w.morph with
  | none => simp [MorphV.pyGet, dict_entries, hm]
  | some mv =>
      cases mv with
      | mdict es => simp [MorphV.pyGet, dict_entries, hm]
      | mlist xs => simp [clean_morph, hm] at hc

theorem pyIndex_clean (w : Word) (hc : clean_morph w = true)
    (hk : ((dict_entries w).lookup "Tense").isSome = true) :
    (w.morph.getD (.mdict [])).pyIndex "Tense" = .ok (word_tense_vals w) := by
  cases hm : w.morph with
  | none => exfalso; simp [dict_entries, hm] at hk
  | some mv =>
      cases mv with
      | mlist xs => simp [clean_morph, hm] at hc
      | mdict es =>
          have he : dict_entries w = es := dict_entries_eq w es hm
          rw [he] at hk
          cases hl : es.lookup "Tense" with
          | none => rw [hl] at hk; simp at hk
          | some v =>
              simp [MorphV.pyIndex, hm, hl, word_tense_vals, he]

/-- The claim-side analytic-future rule of §4.6: the label written to
the third word of a window, `none` when the pattern does not match.
`Pres` takes precedence over `Imp`; any other tense yields no label. -/
def c4_label (w1 w2 w3 : Word) : Option String :=
  if w1.pos = some "AUX" ∧ ((dict_entries w1).lookup "Tense").isSome = true
      ∧ lowerStr w2.text = "a" ∧ w2.pos = some "ADP" ∧ w3.pos = some "VERB"
      ∧ "Inf" ∈ ((dict_entries w3).lookup "VerbForm").getD [] then
    if "Pres" ∈ word_tense_vals w1 then some "analyticalFuture"
    else if "Imp" ∈ word_tense_vals w1 then some "analyticalFuture_past"
    else none
  else none

theorem future_window_clean (w1 w2 w3 : Word) (h1 : clean_morph w1 = true)
    (h3 : clean_morph w3 = true) :
    future_window w1 w2 w3 = .ok (c4_label w1 w2 w3) := by
  rw [future_window, c4_label]
  by_cases hg : w1.pos = some "AUX"
      ∧ (w1.morph.getD (.mdict [])).pyHasKey "Tense" = true
      ∧ lowerStr w2.text = "a" ∧ w2.pos = some "ADP" ∧ w3.pos = some "VERB"
  · rw [if_pos hg, pyGet_clean w3 "VerbForm" h3]
    simp only [Bind.bind, Except.bind]
    have hk : ((dict_entries w1).lookup "Tense").isSome = true := by
      rw [← pyHasKey_clean w1 h1]
      exact hg.2.1
    by_cases hInf : "Inf" ∈ ((dict_entries w3).lookup "VerbForm").getD []
    · have hbig : w1.pos = some "AUX" ∧ ((dict_entries w1).lookup "Tense").isSome = true
          ∧ lowerStr w2.text = "a" ∧ w2.pos = some "ADP" ∧ w3.pos = some "VERB"
          ∧ "Inf" ∈ ((dict_entries w3).lookup "VerbForm").getD [] :=
        ⟨hg.1, hk, hg.2.2.1, hg.2.2.2.1, hg.2.2.2.2, hInf⟩
      rw [if_pos hInf, if_pos hbig, pyIndex_clean w1 h1 hk]
      simp only [Bind.bind, Except.bind]
      by_cases hPres : "Pres" ∈ word_tense_vals w1
      · rw [if_pos hPres, if_pos hPres]
        rfl
      · rw [if_neg hPres, if_neg hPres]
        by_cases hImp : "Imp" ∈ word_tense_vals w1
        · rw [if_pos hImp, if_pos hImp]
          rfl
        · rw [if_neg hImp, if_neg hImp]
          rfl
    · rw [if_neg hInf, if_neg (fun hfull => hInf hfull.2.2.2.2.2)]
      rfl
  · rw [if_neg hg, if_neg (fun hfull => hg ⟨hfull.1,
      by rw [pyHasKey_clean w1 h1]; exact hfull.2.1,
      hfull.2.2.1, hfull.2.2.2.1, hfull.2.2.2.2.1⟩)]
    rfl

theorem future_step_eq (ws : List Word) (i : Nat) (w1 w2 w3 : Word)
    (h1 : ws[i]? = some w1) (h2 : ws[(i + 1)]? = some w2)
    (h3 : ws[(i + 2)]? = some w3) :
    future_step ws i =
      (do
        match ← future_window w1 w2 w3 with
        | some l => do
            let w3' ← set_future_type_entry w3 l
            pure (ws.set (i + 2) w3')
        | none => pure ws) := by
  rw [future_step, h1, h2, h3]

/-- Claim C4: a `Future_Type` entry is written into the third word of a
consecutive in-segment triple if and only if the claim's conditions
hold (w1 AUX with a Tense feature, w2 the adposition "a", w3 a VERB
with infinitive verb form, and w1's tense containing Pres or Imp, with
the matching label `c4_label`); otherwise the step leaves the segment
unchanged.  Moreover the pass runs segment by segment, so windows never
span a segment boundary. -/
theorem analytic_future_detection :
    (∀ (ws : List Word) (i : Nat) (w1 w2 w3 : Word),
      ws[i]? = some w1 → ws[(i + 1)]? = some w2 → ws[(i + 2)]? = some w3 →
      clean_morph w1 = true → clean_morph w3 = true →
      ((∀ l, c4_label w1 w2 w3 = some l →
          ∃ w3', set_future_type_entry w3 l = .ok w3'
            ∧ future_step ws i = .ok (ws.set (i + 2) w3')
            ∧ (dict_entries w3').lookup "Future_Type" = some [l])
        ∧ (c4_label w1 w2 w3 = none → future_step ws i = .ok ws)))
    ∧ (∀ (data out : Transcript), post_process_compound_futures data = .ok out →
        out.segments.length = data.segments.length
        ∧ ∀ (j : Nat) (s : Segment), data.segments[j]? = some s →
            ∃ ws', post_process_futures_words s.words = .ok ws'
              ∧ out.segments[j]? = some { s with words := ws' }) := by
  constructor
  · intro ws i w1 w2 w3 h1 h2 h3 hc1 hc3
    have hw := future_window_clean w1 w2 w3 hc1 hc3
    have hstep := future_step_eq ws i w1 w2 w3 h1 h2 h3
    constructor
    · intro l hl
      have hes : ∃ es, w3.morph = some (.mdict es) := by
        cases hm : w3.morph with
        | some mv =>
            cases mv with
            | mdict es => exact ⟨es, rfl⟩
            | mlist xs => simp [clean_morph, hm] at hc3
        | none =>
            exfalso
            have hd : dict_entries w3 = [] := by simp [dict_entries, hm]
            rw [c4_label, hd] at hl
            rw [if_neg (fun hfull => by simpa using hfull.2.2.2.2.2)] at hl
            cases hl
      obtain ⟨es, hm3⟩ := hes
      refine ⟨{ w3 with morph := some (.mdict (insertKey es "Future_Type" [l])) },
        ?_, ?_, ?_⟩
      · rw [set_future_type_entry, hm3]
      · rw [hstep, hw, hl]
        simp only [Bind.bind, Except.bind]
        rw [set_future_type_entry, hm3]
        rfl
      · simp only [dict_entries]
        exact insertKey_lookup es "Future_Type" [l]
    · intro hl
      rw [hstep, hw, hl]
      rfl
  · intro data out h
    obtain ⟨segs, hm, rfl⟩ := post_futures_unfold data out h
    obtain ⟨hlen, hpt⟩ := mapSegsM_pointwise _ data.segments segs hm
    exact ⟨hlen, hpt⟩

/-- The C4 witness words: "va a llover" with the tags of the spec's
example. -/
def c4va : Word :=
  { text := "va", pos := some "AUX", morph := some (.mdict [("Tense", ["Pres"])]) }

/-- The adposition "a" of the C4 witness. -/
def c4a : Word := { text := "a", pos := some "ADP" }

/-- The infinitive "llover" of the C4 witness. -/
def c4llover : Word :=
  { text := "llover", pos := some "VERB",
    morph := some (.mdict [("VerbForm", ["Inf"])]) }

/-- "llover" after the detector has labelled it. -/
def c4lloverOut : Word :=
  { text := "llover", pos := some "VERB",
    morph := some (.mdict [("VerbForm", ["Inf"]),
      ("Future_Type", ["analyticalFuture"])]) }

/-- The C4 witness segment. -/
def c4ws : List Word := [c4va, c4a, c4llover]

/-- Witness for claim C4: on "va a llover" the detector writes
`Future_Type = analyticalFuture` onto "llover". -/
theorem analytic_future_detection_witness :
    future_step c4ws 0 = .ok (c4ws.set 2 c4lloverOut) := by
  obtain ⟨w3', hset, hstep, _⟩ :=
    (analytic_future_detection.1 c4ws 0 c4va c4a c4llover
      rfl rfl rfl (by decide) (by decide)).1 "analyticalFuture" (by decide)
  have hval : (.ok c4lloverOut : Except String Word) = .ok w3' := by
    rw [← hset]
    rfl
  simp only [Except.ok.injEq] at hval
  rw [hval]
  exact hstep

/-- Claim C7: without overwrite permission an already-annotated
transcript (some word carries a pos or morph key) is skipped entirely,
so the output record equals the input record — running the pipeline a
second time on a first run's output changes nothing; with overwrite
requested the pipeline runs, and it first removes all four annotation
fields and the morphology bag from every word before reprocessing. -/
theorem skip_and_overwrite_policy :
    (∀ (nlp : String → List Token) (data : Transcript),
      already_annotated data.segments = true →
      process_transcript false nlp data = .ok data)
    ∧ (∀ (nlp : String → List Token) (data : Transcript),
      process_transcript true nlp data = annotate_core nlp (clear_annotations data)
      ∧ ∀ s ∈ (clear_annotations data).segments, ∀ w ∈ s.words,
          w.pos = none ∧ w.lemma' = none ∧ w.dep = none
            ∧ w.head_text = none ∧ w.morph = none) := by
  constructor
  · intro nlp data h
    rw [process_transcript, if_pos ⟨rfl, h⟩]
  · intro nlp data
    constructor
    · rw [process_transcript, if_neg (fun hc => by cases hc.1)]
      rfl
    · exact clear_annotations_cleared data

/-- The C7 witness transcript: one word already carries a pos key. -/
def c7data : Transcript := ⟨[⟨"s", [{ text := "eeh", pos := some "INTJ" }]⟩]⟩

/-- Witness for claim C7: the annotated transcript `c7data` is skipped
(returned untouched) without overwrite, and with overwrite the pipeline
runs on its cleared form. -/
theorem skip_and_overwrite_policy_witness :
    process_transcript false nlpEmpty c7data = .ok c7data
    ∧ process_transcript true nlpEmpty c7data
        = annotate_core nlpEmpty (clear_annotations c7data) :=
  ⟨skip_and_overwrite_policy.1 nlpEmpty c7data rfl,
   (skip_and_overwrite_policy.2 nlpEmpty c7data).1⟩

/-- Claim C8 (amended): the tense classifier silently skips any word
whose morph is missing or malformed (its step is a no-op, no error);
the future detector silently skips windows whose first or third word
has a missing morph; but a malformed (non-mapping) morph is not always
silently skipped by the detector — an otherwise-matching window whose
third word carries a non-dict morph raises instead (counterexample). -/
theorem malformed_morph_handling :
    (∀ (ws : List Word) (i : Nat) (w : Word), ws[i]? = some w →
      (w.morph = none ∨ ∃ xs, w.morph = some (.mlist xs)) →
      tense_step ws i = .ok ws)
    ∧ (∀ (ws : List Word) (i : Nat) (w1 : Word), ws[i]? = some w1 →
      w1.morph = none → future_step ws i = .ok ws)
    ∧ (∀ (ws : List Word) (i : Nat) (w3 : Word), ws[(i + 2)]? = some w3 →
      w3.morph = none → future_step ws i = .ok ws) := by
  refine ⟨?_, ?_, ?_⟩
  · intro ws i w hg hm
    rcases hm with hm | ⟨xs, hm⟩
    · simp [tense_step, hg, hm]
    · simp [tense_step, hg, hm]
  · intro ws i w1 hg hm
    cases h2 : ws[(i + 1)]? with
    | none => rw [future_step, hg, h2]
    | some w2 =>
        cases h3 : ws[(i + 2)]? with
        | none => rw [future_step, hg, h2, h3]
        | some w3 =>
            rw [future_step_eq ws i w1 w2 w3 hg h2 h3]
            have hwin : future_window w1 w2 w3 = .ok none := by
              rw [future_window]
              rw [if_neg (fun hfull => by
                have hk := hfull.2.1
                rw [hm] at hk
                simp [MorphV.pyHasKey] at hk)]
              rfl
            rw [hwin]
            rfl
  · intro ws i w3 hg hm
    cases h1 : ws[i]? with
    | none => rw [future_step, h1]
    | some w1 =>
        cases h2 : ws[(i + 1)]? with
        | none => rw [future_step, h1, h2]
        | some w2 =>
            rw [future_step_eq ws i w1 w2 w3 h1 h2 hg]
            have hwin : future_window w1 w2 w3 = .ok none := by
              rw [future_window]
              by_cases hgd : w1.pos = some "AUX"
                  ∧ (w1.morph.getD (.mdict [])).pyHasKey "Tense" = true
                  ∧ lowerStr w2.text = "a" ∧ w2.pos = some "ADP"
                  ∧ w3.pos = some "VERB"
              · rw [if_pos hgd, hm]
                simp [MorphV.pyGet, Bind.bind, Except.bind]
                rfl
              · rw [if_neg hgd]
                rfl
            rw [hwin]
            rfl

/-- The malformed word of the C8 counterexample: a VERB whose morph is
a (non-mapping) JSON array. -/
def c8bad : Word := { text := "llover", pos := some "VERB", morph := some (.mlist []) }

/-- Claim C8 counterexample: in the otherwise-matching window
"va a llover" where "llover" carries a malformed (non-dict) morph, the
future detector raises (`morph3.get` on a non-mapping raises
AttributeError in Python) instead of silently skipping the word. -/
theorem malformed_morph_counterexample :
    post_process_futures_words [c4va, c4a, c8bad] = .error "AttributeError" := rfl

/-- Witness for claim C8: the tense classifier's step is a silent
no-op on the malformed-morph word `c8bad`. -/
theorem malformed_morph_handling_witness :
    tense_step [c8bad] 0 = .ok [c8bad] :=
  malformed_morph_handling.1 [c8bad] 0 c8bad rfl (Or.inr ⟨[], rfl⟩)

theorem lookup_none_of_not_mem {β : Type} :
    ∀ (es : List (String × β)) (k : String),
      k ∉ es.map Prod.fst → es.lookup k = none := by
  intro es k
  induction es with
  | nil => intro _; rfl
  | cons p rest ih =>
      intro h
      rw [List.map_cons] at h
      have h1 : k ≠ p.1 := fun he => h (by rw [he]; exact List.mem_cons_self _ _)
      have h2 : k ∉ rest.map Prod.fst := fun hmem => h (List.mem_cons_of_mem _ hmem)
      rw [List.lookup]
      have hne : (k == p.1) = false := by
        simp [beq_iff_eq]
        exact h1
      rw [hne]
      exact ih h2

/-- Claim C9: a speaker name absent from the fixed speaker-code table
does not fail: the mapping totally resolves it to the explicit unknown
marker, the all-empty attribute tuple (professionalism, gender,
discourse mode, topic). -/
theorem unknown_speaker_fallback (name : String)
    (h : name ∉ speaker_mapping.map Prod.fst) :
    map_speaker_attributes name = ("", "", "", "") := by
  rw [map_speaker_attributes, lookup_none_of_not_mem speaker_mapping name h]
  rfl

/-- Witness for claim C9: the unknown speaker code "xyz" resolves to
the empty-attribute marker. -/
theorem unknown_speaker_fallback_witness :
    map_speaker_attributes "xyz" = ("", "", "", "") :=
  unknown_speaker_fallback "xyz" (by decide)
